import Mathlib

/-!
Verification of the obstacle-avoiding route planner in `src/app.py`
(Taiwan ocean navigation app).

The planner consists of:
* `grid = np.where(np.isnan(subset.water_u.values), 1, 0)` — the navigability
  grid (line 62);
* `dist_from_land = distance_transform_edt(1 - grid)` and
  `safety_map = np.exp(-dist_from_land / 0.5)` — the safety field (lines 63–64);
* `get_water_idx` — snapping of a queried index to a water cell (lines 71–76);
* `astar_search` — the A* loop over the 8-connected grid (lines 23–49);
* the path assembly `path_lon` / `path_lat` (lines 81–83).

Modelling conventions:
* Grid indices are pairs of integers (`Cell := ℤ × ℤ`); Python integers are
  unbounded, and neighbour offsets may be negative.
* Machine floats are modelled as exact rationals (`ℚ`); decimal literals such
  as `1.414`, `1.5`, `1e9` denote the corresponding exact rationals.
* A heap priority pushed by the source is `g + ‖neighbor - goal‖` where `g` is
  a sum of rational step costs and the norm is `√(Δr² + Δc²)`.  We represent
  such a number exactly as a pair `(g, s) : ℚ × ℕ` standing for `g + √s`, and
  compare pairs with the decision procedure `prioLT`, proved below
  (`prioLT_correct`) to agree with the real-number order.
* `heapq` pops a least element of the heap under the lexicographic tuple order
  `(f_score, (row, col))`; we model the heap as the list of its entries and pop
  the first least entry.  Entries with equal priority value and equal cell are
  interchangeable, so this is faithful.
* The `while oheap:` loop is modelled with an explicit fuel parameter; the
  result `none` means the loop did not finish within the given fuel.
* The safety array handed to `astar_search` is an arbitrary rational-valued
  function: the actual program passes a float array, and every property proved
  about the search pipeline below is proved for an arbitrary such array.  The
  real-valued safety field of lines 63–64 is modelled separately
  (`safety_map`) for the claims about its values.
-/

/-- A grid index: `(row, col)` as (unbounded) integers. -/
abbrev Cell : Type := ℤ × ℤ

/-- The neighbour offsets of `astar_search`, in source order (line 24). -/
def neighborOffsets : List Cell :=
  [(0, 1), (0, -1), (1, 0), (-1, 0), (1, 1), (1, -1), (-1, 1), (-1, -1)]

/-- Squared Euclidean distance between two grid indices, as a natural number.
`np.linalg.norm(np.array(a) - np.array(b))` is the square root of this. -/
def sqDist (a b : Cell) : ℕ := ((a.1 - b.1) ^ 2 + (a.2 - b.2) ^ 2).toNat

/-- A heap priority `(g, s)` standing for the real number `g + √s`:
the rational part `g` is the accumulated `g`-score, the natural part `s`
is the squared Euclidean heuristic distance. -/
abbrev Prio : Type := ℚ × ℕ

/-- Exact decision procedure for `p.1 + √p.2 < q.1 + √q.2`.
Writing `d = q.1 - p.1`, the inequality is `√p.2 < d + √q.2`, which is decided
by rational arithmetic after the appropriate case split and squaring. -/
def prioLT (p q : Prio) : Bool :=
  let d : ℚ := q.1 - p.1
  if 0 ≤ d then
    let e : ℚ := (p.2 : ℚ) - d ^ 2 - (q.2 : ℚ)
    if e < 0 then true else decide (e ^ 2 < 4 * d ^ 2 * (q.2 : ℚ))
  else
    let e : ℚ := (q.2 : ℚ) - (p.2 : ℚ) - d ^ 2
    if e ≤ 0 then false else decide (4 * d ^ 2 * (p.2 : ℚ) < e ^ 2)

/-- Strict lexicographic order on cells, as Python compares `(row, col)`
tuples. -/
def cellLT (a b : Cell) : Bool :=
  decide (a.1 < b.1) || (decide (a.1 = b.1) && decide (a.2 < b.2))

/-- A heap entry `(f_score, cell)` as pushed at lines 26 and 48. -/
abbrev HeapEntry : Type := Prio × Cell

/-- Strict order on heap entries: Python compares the tuples
`(f_score, (row, col))` lexicographically, numerically on the first
component. -/
def entryLT (x y : HeapEntry) : Bool :=
  prioLT x.1 y.1 || (!prioLT x.1 y.1 && !prioLT y.1 x.1 && cellLT x.2 y.2)

/-- First least entry of `x :: xs` under `entryLT` (what `heappop` removes). -/
def findMin (x : HeapEntry) (xs : List HeapEntry) : HeapEntry :=
  xs.foldl (fun acc y => if entryLT y acc then y else acc) x

/-- The mutable state of the `while oheap:` loop: the open heap, the
`came_from` predecessor map and the `g_score` map.  The Python dicts are
modelled as association lists where the most recent binding shadows older
ones (`lookup` finds the first binding). -/
structure AState where
  heap : List HeapEntry
  came : List (Cell × Cell)
  gscore : List (Cell × ℚ)
deriving DecidableEq

/-- Walk the `came_from` chain backwards from `current`, accumulating cells;
the Python loop `while current in came_from: path.append(current); current =
came_from[current]` followed by `path[::-1]`.  `fuel` bounds the number of
steps; `none` models non-termination of the Python loop (a cyclic chain). -/
def reconstructPath (came : List (Cell × Cell)) : Cell → ℕ → List Cell → Option (List Cell)
  | cur, fuel, acc =>
    match came.lookup cur with
    | none => some acc
    | some p =>
      match fuel with
      | 0 => none
      | Nat.succ f => reconstructPath came p f (cur :: acc)

/-- In-bounds predicate of the bounds check at line 39:
`0 <= neighbor[0] < grid.shape[0] and 0 <= neighbor[1] < grid.shape[1]`. -/
abbrev inBounds (R C : ℕ) (c : Cell) : Prop :=
  0 ≤ c.1 ∧ c.1 < (R : ℤ) ∧ 0 ≤ c.2 ∧ c.2 < (C : ℤ)

/-- The cost of stepping through offset `off` to neighbour `nb`
(lines 41–42): `dist + safety_cost` where `dist` is `1.414` for a diagonal
move and `1.0` otherwise, and `safety_cost = safety_map[neighbor] * 1.5`. -/
def stepCost (safety : Cell → ℚ) (off nb : Cell) : ℚ :=
  (if off.1 ≠ 0 ∧ off.2 ≠ 0 then 1.414 else 1.0) + safety nb * 1.5

/-- The relaxation test of line 44:
`tentative_g < g_score.get(neighbor, float('inf'))`. -/
def betterThan (g : List (Cell × ℚ)) (nb : Cell) (t : ℚ) : Bool :=
  match g.lookup nb with
  | none => true
  | some v => decide (t < v)

/-- Processing of one neighbour offset inside the `for i, j in neighbors:`
loop (lines 37–48): bounds check, obstacle check, and the relaxation; on
success the neighbour is pushed with priority `tentative_g + √(sqDist nb
goal)` and `came_from` / `g_score` are updated. -/
def expandNeighbor (R C : ℕ) (grid : Cell → ℕ) (safety : Cell → ℚ) (goal cur : Cell)
    (gcur : ℚ) (st : AState) (off : Cell) : AState :=
  if inBounds R C (cur.1 + off.1, cur.2 + off.2) then
    if grid (cur.1 + off.1, cur.2 + off.2) = 1 then st
    else
      if betterThan st.gscore (cur.1 + off.1, cur.2 + off.2)
          (gcur + stepCost safety off (cur.1 + off.1, cur.2 + off.2)) then
        { heap := ((gcur + stepCost safety off (cur.1 + off.1, cur.2 + off.2),
            sqDist (cur.1 + off.1, cur.2 + off.2) goal),
            (cur.1 + off.1, cur.2 + off.2)) :: st.heap
          came := ((cur.1 + off.1, cur.2 + off.2), cur) :: st.came
          gscore := ((cur.1 + off.1, cur.2 + off.2),
            gcur + stepCost safety off (cur.1 + off.1, cur.2 + off.2)) :: st.gscore }
      else st
  else st

/-- One-or-more iterations of the `while oheap:` loop (lines 29–49), driven by
fuel.  An empty heap returns `some []` (line 49); popping the goal
reconstructs the path (lines 31–36); otherwise the 8 neighbours are expanded
in source order. -/
def astarLoop (R C : ℕ) (grid : Cell → ℕ) (safety : Cell → ℚ) (goal : Cell) :
    ℕ → AState → Option (List Cell)
  | 0, _ => none
  | Nat.succ _, ⟨[], _, _⟩ => some []
  | Nat.succ fuel, ⟨x :: t, came, g⟩ =>
    if (findMin x t).2 = goal then
      reconstructPath came (findMin x t).2 (came.length + 1) []
    else
      astarLoop R C grid safety goal fuel
        (neighborOffsets.foldl
          (expandNeighbor R C grid safety goal (findMin x t).2
            ((g.lookup (findMin x t).2).getD 0))
          ⟨(x :: t).erase (findMin x t), came, g⟩)

/-- `astar_search(grid, safety_map, start, goal)` (lines 23–49) on an `R × C`
grid, with explicit fuel.  The initial state pushes `(0, start)` and sets
`g_score = {start: 0}`. -/
def astar_search (R C : ℕ) (grid : Cell → ℕ) (safety : Cell → ℚ)
    (start goal : Cell) (fuel : ℕ) : Option (List Cell) :=
  astarLoop R C grid safety goal fuel
    { heap := [((0, 0), start)], came := [], gscore := [(start, 0)] }

/-- The navigability grid of line 62:
`grid = np.where(np.isnan(subset.water_u.values), 1, 0)`.
A velocity component is modelled as `Option ℚ`, with `none` standing for the
NaN missing-value sentinel.  Note the source consults only the eastward
component `water_u`. -/
def gridOf (u : Cell → Option ℚ) : Cell → ℕ :=
  fun c => if u c = none then 1 else 0

/-- Index of the first least value of `f` on `{0, ..., n-1}`:
`np.argmin` over a flattened array (first occurrence of the minimum). -/
def argminIdx (f : ℕ → ℚ) (n : ℕ) : ℕ :=
  (List.range n).foldl (fun b i => if f i < f b then i else b) 0

/-- `get_water_idx(iy, ix)` (lines 71–76): if the queried cell is water return
it; otherwise take the row-major `argmin` of the distance array whose water
entries are the Euclidean distances to `(iy, ix)` and whose land entries are
set to `1e9`.  The source compares square roots of squared integer distances
against `1e9`; applying the strictly monotone map `x ↦ x²` to every entry
(water entries become the squared distances, `1e9` becomes `1e18`) preserves
the comparison results exactly, so the model stores squared distances and the
sentinel `1e18`.  `gwDists` is the (squared) flattened distance array `dists`
of lines 73–75, indexed row-major by `k ↦ (k / C, k % C)` as
`np.unravel_index` does. -/
def gwDists (C : ℕ) (grid : Cell → ℕ) (iy ix : ℤ) (k : ℕ) : ℚ :=
  if grid ((k / C : ℕ), (k % C : ℕ)) = 1 then 1e18
  else (((((k / C : ℕ) : ℤ) - iy) ^ 2 + (((k % C : ℕ) : ℤ) - ix) ^ 2 : ℤ) : ℚ)

/-- `get_water_idx(iy, ix)` proper (lines 71–76). -/
def get_water_idx (R C : ℕ) (grid : Cell → ℕ) (iy ix : ℤ) : Cell :=
  if grid (iy, ix) = 0 then (iy, ix)
  else
    ((argminIdx (gwDists C grid iy ix) (R * C) / C : ℕ),
      (argminIdx (gwDists C grid iy ix) (R * C) % C : ℕ))

/-- Index of the coordinate-array sample nearest to `x` (lines 67–68):
`np.abs(arr - x).argmin()`, first occurrence on ties. -/
def nearestIdx (xs : List ℚ) (x : ℚ) : ℕ :=
  argminIdx (fun i => |xs.getD i 0 - x|) xs.length

/-- Resolution of a queried geographic coordinate to a search cell
(lines 67–78): nearest-sample index per axis, then `get_water_idx`. -/
def resolveCoord (lats lons : List ℚ) (u : Cell → Option ℚ) (lat lon : ℚ) : Cell :=
  get_water_idx lats.length lons.length (gridOf u)
    (nearestIdx lats lat) (nearestIdx lons lon)

/-- The planning pipeline of lines 61–83 on an already-loaded field:
coordinate arrays `lats`/`lons`, eastward velocity `u` (the only component the
grid derivation reads), a safety array, the queried start and goal
coordinates.  Returns `none` if the search ran out of fuel, `some none` for
the `st.error("找不到路徑 (Path not found).")` branch (empty `path_indices`,
lines 110–111), and `some (some (path_lat, path_lon))` for the success branch
(lines 81–83). -/
def planRoute (lats lons : List ℚ) (u : Cell → Option ℚ) (safety : Cell → ℚ)
    (s_lat s_lon e_lat e_lon : ℚ) (fuel : ℕ) : Option (Option (List ℚ × List ℚ)) :=
  match astar_search lats.length lons.length (gridOf u) safety
      (resolveCoord lats lons u s_lat s_lon) (resolveCoord lats lons u e_lat e_lon) fuel with
  | none => none
  | some path_indices =>
    if path_indices.isEmpty then some none
    else
      some (some
        ([s_lat] ++ path_indices.map (fun i => lats.getD i.1.toNat 0) ++ [e_lat],
          [s_lon] ++ path_indices.map (fun i => lons.getD i.2.toNat 0) ++ [e_lon]))

/-- The spec's notion of an undefined field cell: either velocity component is
the NaN missing sentinel.  (Stated from the spec's words, for comparison with
the source's `gridOf`, which reads only `water_u`.) -/
def fieldUndefinedSpec (u v : Cell → Option ℚ) (c : Cell) : Prop :=
  u c = none ∨ v c = none

section ArgminLemmas

variable (f : ℕ → ℚ)

theorem argminIdx_zero : argminIdx f 0 = 0 := rfl

theorem argminIdx_succ (n : ℕ) :
    argminIdx f (n + 1) =
      if f n < f (argminIdx f n) then n else argminIdx f n := by
  unfold argminIdx
  rw [List.range_succ, List.foldl_append]
  rfl

theorem argminIdx_lt (n : ℕ) (hn : 0 < n) : argminIdx f n < n := by
  induction n with
  | zero => exact absurd hn (lt_irrefl 0)
  | succ m ih =>
    rw [argminIdx_succ]
    by_cases h : f m < f (argminIdx f m)
    · rw [if_pos h]; exact Nat.lt_succ_self m
    · rw [if_neg h]
      rcases Nat.eq_zero_or_pos m with hm | hm
      · subst hm
        rw [argminIdx_zero]
        exact Nat.zero_lt_one
      · exact Nat.lt_succ_of_lt (ih hm)

theorem argminIdx_min (n : ℕ) : ∀ i < n, f (argminIdx f n) ≤ f i := by
  induction n with
  | zero => intro i hi; exact absurd hi (Nat.not_lt_zero i)
  | succ m ih =>
    intro i hi
    rw [argminIdx_succ]
    by_cases h : f m < f (argminIdx f m)
    · rw [if_pos h]
      rcases Nat.lt_succ_iff_lt_or_eq.mp hi with hi' | hi'
      · exact le_trans (le_of_lt h) (ih i hi')
      · subst hi'; exact le_refl _
    · rw [if_neg h]
      rcases Nat.lt_succ_iff_lt_or_eq.mp hi with hi' | hi'
      · exact ih i hi'
      · subst hi'; exact le_of_not_lt h

theorem argminIdx_first (n : ℕ) :
    ∀ i < argminIdx f n, f (argminIdx f n) < f i := by
  induction n with
  | zero => intro i hi; rw [argminIdx_zero] at hi; exact absurd hi (Nat.not_lt_zero i)
  | succ m ih =>
    intro i hi
    rw [argminIdx_succ] at hi ⊢
    by_cases h : f m < f (argminIdx f m)
    · rw [if_pos h] at hi ⊢
      exact lt_of_lt_of_le h (argminIdx_min f m i hi)
    · rw [if_neg h] at hi ⊢
      exact ih i hi

end ArgminLemmas

/-! ### Fuel monotonicity and determinism of the search -/

theorem astarLoop_mono (R C : ℕ) (grid : Cell → ℕ) (safety : Cell → ℚ) (goal : Cell)
    (fuel : ℕ) (st : AState) (r : List Cell)
    (h : astarLoop R C grid safety goal fuel st = some r) :
    astarLoop R C grid safety goal (fuel + 1) st = some r := by
  induction fuel generalizing st with
  | zero => exact absurd h (by simp [astarLoop])
  | succ m ih =>
    obtain ⟨heap, came, g⟩ := st
    cases heap with
    | nil => rw [astarLoop] at h ⊢; exact h
    | cons x t =>
      rw [astarLoop] at h ⊢
      by_cases hg : (findMin x t).2 = goal
      · rw [if_pos hg] at h ⊢; exact h
      · rw [if_neg hg] at h ⊢; exact ih _ h

theorem astarLoop_mono_le (R C : ℕ) (grid : Cell → ℕ) (safety : Cell → ℚ) (goal : Cell)
    {fuel fuel' : ℕ} (hle : fuel ≤ fuel') (st : AState) (r : List Cell)
    (h : astarLoop R C grid safety goal fuel st = some r) :
    astarLoop R C grid safety goal fuel' st = some r := by
  induction fuel' with
  | zero => rwa [Nat.le_zero.mp hle] at h
  | succ m ih =>
    rcases Nat.lt_succ_iff_lt_or_eq.mp (Nat.lt_succ_of_le hle) with hlt | heq
    · exact astarLoop_mono R C grid safety goal m st r (ih (Nat.lt_succ_iff.mp hlt))
    · rwa [heq] at h

theorem astar_search_mono (R C : ℕ) (grid : Cell → ℕ) (safety : Cell → ℚ)
    (start goal : Cell) {fuel fuel' : ℕ} (hle : fuel ≤ fuel') (r : List Cell)
    (h : astar_search R C grid safety start goal fuel = some r) :
    astar_search R C grid safety start goal fuel' = some r :=
  astarLoop_mono_le R C grid safety goal hle _ r h

theorem planRoute_mono (lats lons : List ℚ) (u : Cell → Option ℚ) (safety : Cell → ℚ)
    (s_lat s_lon e_lat e_lon : ℚ) {fuel fuel' : ℕ} (hle : fuel ≤ fuel')
    (res : Option (List ℚ × List ℚ))
    (h : planRoute lats lons u safety s_lat s_lon e_lat e_lon fuel = some res) :
    planRoute lats lons u safety s_lat s_lon e_lat e_lon fuel' = some res := by
  unfold planRoute at h ⊢
  cases ha : astar_search (lats.length) (lons.length) (gridOf u) safety _ _ fuel with
  | none => rw [ha] at h; exact absurd h (by simp)
  | some p =>
    rw [ha] at h
    rw [astar_search_mono _ _ _ _ _ _ hle p ha]
    exact h

/-! ### C9: determinism and the open-set tie-break -/

/-- Semantic value of a heap priority `(g, s)`: the real number `g + √s` that
the pushed float `f_score = tentative_g + np.linalg.norm(np.array(neighbor) -
np.array(goal))` (line 47) denotes. -/
noncomputable def prioVal (p : Prio) : ℝ := (p.1 : ℝ) + Real.sqrt p.2

/-- The decision procedure `prioLT` exactly decides the strict order of the
represented reals. -/
theorem prioLT_correct (p q : Prio) : prioLT p q = true ↔ prioVal p < prioVal q := by
  obtain ⟨g₁, s₁⟩ := p
  obtain ⟨g₂, s₂⟩ := q
  have hs₁ : Real.sqrt s₁ ^ 2 = (s₁ : ℝ) := Real.sq_sqrt (Nat.cast_nonneg s₁)
  have hs₂ : Real.sqrt s₂ ^ 2 = (s₂ : ℝ) := Real.sq_sqrt (Nat.cast_nonneg s₂)
  have hn₁ : (0 : ℝ) ≤ Real.sqrt s₁ := Real.sqrt_nonneg _
  have hn₂ : (0 : ℝ) ≤ Real.sqrt s₂ := Real.sqrt_nonneg _
  show (if 0 ≤ g₂ - g₁ then
      if (s₁ : ℚ) - (g₂ - g₁) ^ 2 - (s₂ : ℚ) < 0 then true
      else decide (((s₁ : ℚ) - (g₂ - g₁) ^ 2 - (s₂ : ℚ)) ^ 2 < 4 * (g₂ - g₁) ^ 2 * (s₂ : ℚ))
    else
      if (s₂ : ℚ) - (s₁ : ℚ) - (g₂ - g₁) ^ 2 ≤ 0 then false
      else decide (4 * (g₂ - g₁) ^ 2 * (s₁ : ℚ) < ((s₂ : ℚ) - (s₁ : ℚ) - (g₂ - g₁) ^ 2) ^ 2))
      = true ↔ prioVal (g₁, s₁) < prioVal (g₂, s₂)
  unfold prioVal
  dsimp only
  by_cases hd : (0 : ℚ) ≤ g₂ - g₁
  · rw [if_pos hd]
    have hd' : (0 : ℝ) ≤ (g₂ : ℝ) - g₁ := by exact_mod_cast hd
    by_cases he : (s₁ : ℚ) - (g₂ - g₁) ^ 2 - (s₂ : ℚ) < 0
    · rw [if_pos he]
      have he' : (s₁ : ℝ) - ((g₂ : ℝ) - g₁) ^ 2 - (s₂ : ℝ) < 0 := by exact_mod_cast he
      refine iff_of_true rfl ?_
      have key : (s₁ : ℝ) < (((g₂ : ℝ) - g₁) + Real.sqrt s₂) ^ 2 := by
        nlinarith [mul_nonneg hd' hn₂]
      have h2 : Real.sqrt s₁ < Real.sqrt ((((g₂ : ℝ) - g₁) + Real.sqrt s₂) ^ 2) :=
        Real.sqrt_lt_sqrt (Nat.cast_nonneg s₁) key
      rw [Real.sqrt_sq (by linarith)] at h2
      linarith
    · rw [if_neg he]
      push_neg at he
      have he' : (0 : ℝ) ≤ (s₁ : ℝ) - ((g₂ : ℝ) - g₁) ^ 2 - (s₂ : ℝ) := by exact_mod_cast he
      rw [decide_eq_true_eq]
      have hsq : (2 * ((g₂ : ℝ) - g₁) * Real.sqrt s₂) ^ 2 =
          4 * ((g₂ : ℝ) - g₁) ^ 2 * (s₂ : ℝ) := by
        rw [mul_pow, mul_pow, hs₂]; ring
      have hb : (0 : ℝ) ≤ 2 * ((g₂ : ℝ) - g₁) * Real.sqrt s₂ :=
        mul_nonneg (mul_nonneg (by norm_num) hd') hn₂
      constructor
      · intro h
        have h' : ((s₁ : ℝ) - ((g₂ : ℝ) - g₁) ^ 2 - (s₂ : ℝ)) ^ 2 <
            4 * ((g₂ : ℝ) - g₁) ^ 2 * (s₂ : ℝ) := by exact_mod_cast h
        have hlt : (s₁ : ℝ) - ((g₂ : ℝ) - g₁) ^ 2 - (s₂ : ℝ) <
            2 * ((g₂ : ℝ) - g₁) * Real.sqrt s₂ :=
          lt_of_pow_lt_pow_left₀ 2 hb (by rw [hsq]; exact h')
        have key : (s₁ : ℝ) < (((g₂ : ℝ) - g₁) + Real.sqrt s₂) ^ 2 := by nlinarith [hs₂]
        have h2 : Real.sqrt s₁ < Real.sqrt ((((g₂ : ℝ) - g₁) + Real.sqrt s₂) ^ 2) :=
          Real.sqrt_lt_sqrt (Nat.cast_nonneg s₁) key
        rw [Real.sqrt_sq (by linarith)] at h2
        linarith
      · intro h
        have h1 : Real.sqrt s₁ < ((g₂ : ℝ) - g₁) + Real.sqrt s₂ := by linarith
        have h2 : (s₁ : ℝ) < (((g₂ : ℝ) - g₁) + Real.sqrt s₂) ^ 2 := by
          have h3 := pow_lt_pow_left₀ h1 hn₁ (by norm_num : (2 : ℕ) ≠ 0)
          rw [hs₁] at h3
          exact h3
        have h3 : (s₁ : ℝ) - ((g₂ : ℝ) - g₁) ^ 2 - (s₂ : ℝ) <
            2 * ((g₂ : ℝ) - g₁) * Real.sqrt s₂ := by nlinarith [hs₂]
        have h4 : ((s₁ : ℝ) - ((g₂ : ℝ) - g₁) ^ 2 - (s₂ : ℝ)) ^ 2 <
            4 * ((g₂ : ℝ) - g₁) ^ 2 * (s₂ : ℝ) := by
          have h5 := pow_lt_pow_left₀ h3 he' (by norm_num : (2 : ℕ) ≠ 0)
          rw [hsq] at h5
          exact h5
        exact_mod_cast h4
  · rw [if_neg hd]
    push_neg at hd
    have hd' : (g₂ : ℝ) - g₁ < 0 := by exact_mod_cast hd
    by_cases he : (s₂ : ℚ) - (s₁ : ℚ) - (g₂ - g₁) ^ 2 ≤ 0
    · rw [if_pos he]
      have he' : (s₂ : ℝ) - (s₁ : ℝ) - ((g₂ : ℝ) - g₁) ^ 2 ≤ 0 := by exact_mod_cast he
      refine iff_of_false (by simp) ?_
      rw [not_lt]
      have key : (s₂ : ℝ) ≤ (Real.sqrt s₁ - ((g₂ : ℝ) - g₁)) ^ 2 := by
        nlinarith [mul_nonneg (neg_nonneg.mpr (le_of_lt hd')) hn₁, hs₁]
      have h2 : Real.sqrt s₂ ≤ Real.sqrt ((Real.sqrt s₁ - ((g₂ : ℝ) - g₁)) ^ 2) :=
        Real.sqrt_le_sqrt key
      rw [Real.sqrt_sq (by linarith)] at h2
      linarith
    · rw [if_neg he]
      push_neg at he
      have he' : (0 : ℝ) < (s₂ : ℝ) - (s₁ : ℝ) - ((g₂ : ℝ) - g₁) ^ 2 := by exact_mod_cast he
      rw [decide_eq_true_eq]
      have hsq : (2 * (-((g₂ : ℝ) - g₁)) * Real.sqrt s₁) ^ 2 =
          4 * ((g₂ : ℝ) - g₁) ^ 2 * (s₁ : ℝ) := by
        rw [mul_pow, mul_pow, hs₁]; ring
      have hb : (0 : ℝ) ≤ 2 * (-((g₂ : ℝ) - g₁)) * Real.sqrt s₁ :=
        mul_nonneg (mul_nonneg (by norm_num) (by linarith)) hn₁
      constructor
      · intro h
        have h' : 4 * ((g₂ : ℝ) - g₁) ^ 2 * (s₁ : ℝ) <
            ((s₂ : ℝ) - (s₁ : ℝ) - ((g₂ : ℝ) - g₁) ^ 2) ^ 2 := by exact_mod_cast h
        have h3 : 2 * (-((g₂ : ℝ) - g₁)) * Real.sqrt s₁ <
            (s₂ : ℝ) - (s₁ : ℝ) - ((g₂ : ℝ) - g₁) ^ 2 :=
          lt_of_pow_lt_pow_left₀ 2 (le_of_lt he') (by rw [hsq]; exact h')
        have key : (Real.sqrt s₁ - ((g₂ : ℝ) - g₁)) ^ 2 < (s₂ : ℝ) := by nlinarith [hs₁]
        have h4 : Real.sqrt ((Real.sqrt s₁ - ((g₂ : ℝ) - g₁)) ^ 2) < Real.sqrt s₂ :=
          Real.sqrt_lt_sqrt (sq_nonneg _) key
        rw [Real.sqrt_sq (by linarith)] at h4
        linarith
      · intro h
        have h1 : Real.sqrt s₁ - ((g₂ : ℝ) - g₁) < Real.sqrt s₂ := by linarith
        have h2 : (Real.sqrt s₁ - ((g₂ : ℝ) - g₁)) ^ 2 < (s₂ : ℝ) := by
          have h5 := pow_lt_pow_left₀ h1 (by linarith) (by norm_num : (2 : ℕ) ≠ 0)
          rw [hs₂] at h5
          exact h5
        have h3 : 2 * (-((g₂ : ℝ) - g₁)) * Real.sqrt s₁ <
            (s₂ : ℝ) - (s₁ : ℝ) - ((g₂ : ℝ) - g₁) ^ 2 := by nlinarith [hs₁]
        have h4 : 4 * ((g₂ : ℝ) - g₁) ^ 2 * (s₁ : ℝ) <
            ((s₂ : ℝ) - (s₁ : ℝ) - ((g₂ : ℝ) - g₁) ^ 2) ^ 2 := by
          have h5 := pow_lt_pow_left₀ h3 hb (by norm_num : (2 : ℕ) ≠ 0)
          rw [hsq] at h5
          exact h5
        exact_mod_cast h4

/-- `prioLT p q = false` means the represented real of `p` is not below that
of `q`. -/
theorem prioLT_false (p q : Prio) : prioLT p q = false ↔ ¬ prioVal p < prioVal q := by
  rw [← prioLT_correct]
  cases prioLT p q <;> simp

/-- `cellLT` is the strict lexicographic order on `(row, col)` pairs. -/
theorem cellLT_iff (a b : Cell) :
    cellLT a b = true ↔ (a.1 < b.1 ∨ (a.1 = b.1 ∧ a.2 < b.2)) := by
  simp [cellLT]

theorem cellLT_trans (a b c : Cell) (h₁ : cellLT a b = true) (h₂ : cellLT b c = true) :
    cellLT a c = true := by
  rw [cellLT_iff] at h₁ h₂ ⊢
  rcases h₁ with h | ⟨h, h'⟩ <;> rcases h₂ with g | ⟨g, g'⟩
  · exact Or.inl (lt_trans h g)
  · exact Or.inl (by rw [← g]; exact h)
  · exact Or.inl (by rw [h]; exact g)
  · exact Or.inr ⟨h.trans g, lt_trans h' g'⟩

theorem cellLT_not_trans (a b c : Cell) (h₁ : cellLT a b = false)
    (h₂ : cellLT b c = false) : cellLT a c = false := by
  have hab : ¬ (a.1 < b.1 ∨ (a.1 = b.1 ∧ a.2 < b.2)) := by rw [← cellLT_iff, h₁]; simp
  have hbc : ¬ (b.1 < c.1 ∨ (b.1 = c.1 ∧ b.2 < c.2)) := by rw [← cellLT_iff, h₂]; simp
  cases h : cellLT a c with
  | false => rfl
  | true =>
    exfalso
    have hac := (cellLT_iff a c).mp h
    push_neg at hab hbc
    rcases hac with h' | ⟨h', h''⟩ <;> omega

/-- `entryLT` is the strict lexicographic order on the represented priority
value paired with the `(row, col)` cell — exactly how Python orders the
pushed `(f_score, (row, col))` tuples. -/
theorem entryLT_iff (x y : HeapEntry) :
    entryLT x y = true ↔
      (prioVal x.1 < prioVal y.1 ∨
        (prioVal x.1 = prioVal y.1 ∧ cellLT x.2 y.2 = true)) := by
  unfold entryLT
  cases hxy : prioLT x.1 y.1 with
  | true =>
    exact iff_of_true (by simp) (Or.inl ((prioLT_correct _ _).mp hxy))
  | false =>
    have hnxy := (prioLT_false _ _).mp hxy
    cases hyx : prioLT y.1 x.1 with
    | true =>
      have hlt := (prioLT_correct _ _).mp hyx
      simp only [Bool.not_true, Bool.not_false, Bool.true_and, Bool.false_and,
        Bool.and_false, Bool.false_or]
      refine iff_of_false (by simp) ?_
      rintro (h | ⟨h, -⟩)
      · exact hnxy h
      · rw [h] at hlt; exact absurd hlt (lt_irrefl _)
    | false =>
      have hnyx := (prioLT_false _ _).mp hyx
      have heq : prioVal x.1 = prioVal y.1 := le_antisymm (not_lt.mp hnyx) (not_lt.mp hnxy)
      simp only [Bool.not_false, Bool.true_and, Bool.false_or]
      constructor
      · intro h; exact Or.inr ⟨heq, h⟩
      · rintro (h | ⟨-, h⟩)
        · exact absurd h hnxy
        · exact h

theorem entryLT_eq_false_iff (x y : HeapEntry) :
    entryLT x y = false ↔
      ¬ (prioVal x.1 < prioVal y.1 ∨
          (prioVal x.1 = prioVal y.1 ∧ cellLT x.2 y.2 = true)) := by
  rw [← entryLT_iff]
  cases entryLT x y <;> simp

theorem entryLT_irrefl (x : HeapEntry) : entryLT x x = false := by
  rw [entryLT_eq_false_iff]
  rintro (h | ⟨-, h⟩)
  · exact absurd h (lt_irrefl _)
  · rcases (cellLT_iff _ _).mp h with h' | ⟨-, h'⟩ <;> exact absurd h' (lt_irrefl _)

theorem entryLT_trans (x y z : HeapEntry) (h₁ : entryLT x y = true)
    (h₂ : entryLT y z = true) : entryLT x z = true := by
  rw [entryLT_iff] at h₁ h₂ ⊢
  rcases h₁ with h | ⟨h, hc⟩ <;> rcases h₂ with g | ⟨g, gc⟩
  · exact Or.inl (lt_trans h g)
  · exact Or.inl (by rw [← g]; exact h)
  · exact Or.inl (by rw [h]; exact g)
  · exact Or.inr ⟨h.trans g, cellLT_trans _ _ _ hc gc⟩

theorem entryLT_not_trans (x y z : HeapEntry) (h₁ : entryLT x y = false)
    (h₂ : entryLT y z = false) : entryLT x z = false := by
  rw [entryLT_eq_false_iff] at h₁ h₂ ⊢
  push_neg at h₁ h₂ ⊢
  obtain ⟨h₁v, h₁c⟩ := h₁
  obtain ⟨h₂v, h₂c⟩ := h₂
  refine ⟨le_trans h₂v h₁v, fun heq => ?_⟩
  have hxy : prioVal x.1 = prioVal y.1 := le_antisymm (by rw [heq]; exact h₂v) h₁v
  have hyz : prioVal y.1 = prioVal z.1 := le_antisymm (by rw [← heq]; exact h₁v) h₂v
  have c₁ : cellLT x.2 y.2 = false := by
    cases hc : cellLT x.2 y.2
    · rfl
    · exact absurd hc (h₁c hxy)
  have c₂ : cellLT y.2 z.2 = false := by
    cases hc : cellLT y.2 z.2
    · rfl
    · exact absurd hc (h₂c hyz)
  rw [cellLT_not_trans x.2 y.2 z.2 c₁ c₂]
  simp

/-- Decomposition of non-strictness of `entryLT` into its priority and cell
components. -/
theorem entryLT_false_parts (e m : HeapEntry) (h : entryLT e m = false) :
    prioLT e.1 m.1 = false ∧
      (prioLT m.1 e.1 = false → cellLT e.2 m.2 = false) := by
  unfold entryLT at h
  cases h1 : prioLT e.1 m.1 with
  | true => rw [h1] at h; simp at h
  | false =>
    refine ⟨rfl, fun h2 => ?_⟩
    rw [h1, h2] at h
    simpa using h

theorem findMin_mem (x : HeapEntry) (xs : List HeapEntry) : findMin x xs ∈ x :: xs := by
  rw [findMin]
  suffices h : ∀ (ys : List HeapEntry) (acc : HeapEntry),
      ys.foldl (fun acc y => if entryLT y acc then y else acc) acc = acc ∨
        ys.foldl (fun acc y => if entryLT y acc then y else acc) acc ∈ ys by
    rcases h xs x with h' | h'
    · rw [h']; exact List.mem_cons_self x xs
    · exact List.mem_cons_of_mem x h'
  intro ys
  induction ys with
  | nil => intro acc; exact Or.inl rfl
  | cons y t ih =>
    intro acc
    rw [List.foldl_cons]
    rcases ih (if entryLT y acc then y else acc) with h' | h'
    · rw [h']
      by_cases hy : entryLT y acc
      · rw [if_pos hy]; exact Or.inr (List.mem_cons_self y t)
      · rw [if_neg hy]; exact Or.inl rfl
    · exact Or.inr (List.mem_cons_of_mem y h')

/-- `findMin` selects an entry no heap member strictly precedes in the
`(f_score, (row, col))` tuple order. -/
theorem findMin_min (x : HeapEntry) (xs : List HeapEntry) :
    ∀ e ∈ x :: xs, entryLT e (findMin x xs) = false := by
  unfold findMin
  induction xs generalizing x with
  | nil =>
    intro e he
    rw [List.mem_singleton] at he
    subst he
    exact entryLT_irrefl e
  | cons y ys ih =>
    intro e he
    simp only [List.foldl_cons]
    by_cases h : entryLT y x = true
    · rw [if_pos h]
      rcases List.mem_cons.mp he with rfl | he'
      · cases hm : entryLT e (ys.foldl (fun acc y => if entryLT y acc then y else acc) y) with
        | false => rfl
        | true =>
          have hy := ih y y (List.mem_cons_self y ys)
          rw [entryLT_trans y e _ h hm] at hy
          exact absurd hy (by decide)
      · exact ih y e he'
    · have h' : entryLT y x = false := by
        cases hyx : entryLT y x
        · rfl
        · exact absurd hyx h
      rw [if_neg h]
      rcases List.mem_cons.mp he with rfl | he'
      · exact ih e e (List.mem_cons_self e ys)
      · rcases List.mem_cons.mp he' with rfl | he''
        · have hx := ih x x (List.mem_cons_self x ys)
          exact entryLT_not_trans e x _ h' hx
        · exact ih x e (List.mem_cons_of_mem x he'')

/-- The pop rule the claim asserts, stated from its words for comparison with
the source's `findMin`: among entries of minimal `f`-priority, pop the one
inserted earliest.  Pushes cons entries onto the heap list, so the list holds
entries most-recent-first and the earliest-inserted minimal entry is the last
minimal entry in list order: the scan replaces the candidate whenever a later
(older) entry has less-or-equal priority, and never consults the `(row, col)`
cells. -/
def findMinIns (x : HeapEntry) (xs : List HeapEntry) : HeapEntry :=
  xs.foldl (fun acc y => if !prioLT acc.1 y.1 then y else acc) x

/-- `astarLoop` with the claim's insertion-order pop in place of the code's
lexicographic pop (spec-side, for the C9 comparison); otherwise identical. -/
def astarLoopIns (R C : ℕ) (grid : Cell → ℕ) (safety : Cell → ℚ) (goal : Cell) :
    ℕ → AState → Option (List Cell)
  | 0, _ => none
  | Nat.succ _, ⟨[], _, _⟩ => some []
  | Nat.succ fuel, ⟨x :: t, came, g⟩ =>
    if (findMinIns x t).2 = goal then
      reconstructPath came (findMinIns x t).2 (came.length + 1) []
    else
      astarLoopIns R C grid safety goal fuel
        (neighborOffsets.foldl
          (expandNeighbor R C grid safety goal (findMinIns x t).2
            ((g.lookup (findMinIns x t).2).getD 0))
          ⟨(x :: t).erase (findMinIns x t), came, g⟩)

/-- `astar_search` with the claim's insertion-order pop (spec-side). -/
def astar_searchIns (R C : ℕ) (grid : Cell → ℕ) (safety : Cell → ℚ)
    (start goal : Cell) (fuel : ℕ) : Option (List Cell) :=
  astarLoopIns R C grid safety goal fuel
    { heap := [((0, 0), start)], came := [], gscore := [(start, 0)] }

/-- **C9.** Planning is deterministic — two terminating runs of the planner
on the identical field, coordinate arrays, query coordinates and safety array
return the identical result, independently of the fuel bound — and the
open-set tie-break is the lexicographic order on `(f_score, (row, col))`
tuples that `heapq` applies: the popped entry is a heap member, no heap
member has strictly smaller priority, and among members of equal priority
none has a lexicographically smaller `(row, col)` cell, irrespective of
insertion order. -/
theorem C9_deterministic_lex_tiebreak :
    (∀ (lats lons : List ℚ) (u : Cell → Option ℚ) (safety : Cell → ℚ)
        (s_lat s_lon e_lat e_lon : ℚ) (fuel₁ fuel₂ : ℕ)
        (res₁ res₂ : Option (List ℚ × List ℚ)),
      planRoute lats lons u safety s_lat s_lon e_lat e_lon fuel₁ = some res₁ →
      planRoute lats lons u safety s_lat s_lon e_lat e_lon fuel₂ = some res₂ →
      res₁ = res₂) ∧
    (∀ (x : HeapEntry) (t : List HeapEntry),
      findMin x t ∈ x :: t ∧
      ∀ e ∈ x :: t,
        prioLT e.1 (findMin x t).1 = false ∧
          (prioLT (findMin x t).1 e.1 = false → cellLT e.2 (findMin x t).2 = false)) := by
  constructor
  · intro lats lons u safety s_lat s_lon e_lat e_lon fuel₁ fuel₂ res₁ res₂ h₁ h₂
    rcases Nat.le_total fuel₁ fuel₂ with hle | hle
    · have := planRoute_mono lats lons u safety s_lat s_lon e_lat e_lon hle res₁ h₁
      rw [this] at h₂
      exact Option.some_inj.mp h₂
    · have := planRoute_mono lats lons u safety s_lat s_lon e_lat e_lon hle res₂ h₂
      rw [this] at h₁
      exact (Option.some_inj.mp h₁).symm
  · intro x t
    refine ⟨findMin_mem x t, fun e he => ?_⟩
    exact entryLT_false_parts e (findMin x t) (findMin_min x t e he)

unseal Rat.add Rat.sub Rat.mul Rat.inv Rat.ofScientific in
/-- Witness for C9: the determinism component applied to a concrete plan run
twice with different fuel bounds, and the tie-break component applied to a
concrete two-entry heap holding an equal-priority tie, where the pop selects
the lexicographically smaller cell `(1, 0)` even though `(1, 2)` — deeper in
the list — was inserted first. -/
theorem C9_deterministic_lex_tiebreak_witness :
    (planRoute [0, 1] [0, 1] (fun _ => some 0) (fun _ => 0) 0 0 1 1 20 =
        some (some ([0, 1, 1], [0, 1, 1])) ∧
      planRoute [0, 1] [0, 1] (fun _ => some 0) (fun _ => 0) 0 0 1 1 21 =
        some (some ([0, 1, 1], [0, 1, 1])) ∧
      (some ([0, 1, 1], [0, 1, 1]) : Option (List ℚ × List ℚ)) =
        some ([0, 1, 1], [0, 1, 1])) ∧
    (prioLT (1.414, 2)
        (findMin ((1.414, 2), ((1 : ℤ), (0 : ℤ))) [((1.414, 2), ((1 : ℤ), (2 : ℤ)))]).1 =
          false ∧
      cellLT ((1 : ℤ), (2 : ℤ))
        (findMin ((1.414, 2), ((1 : ℤ), (0 : ℤ))) [((1.414, 2), ((1 : ℤ), (2 : ℤ)))]).2 =
          false) := by
  constructor
  · exact ⟨by decide, by decide,
      C9_deterministic_lex_tiebreak.1 [0, 1] [0, 1] (fun _ => some 0) (fun _ => 0)
        0 0 1 1 20 21 _ _ (by decide) (by decide)⟩
  · have h := (C9_deterministic_lex_tiebreak.2 ((1.414, 2), ((1 : ℤ), (0 : ℤ)))
        [((1.414, 2), ((1 : ℤ), (2 : ℤ)))]).2 ((1.414, 2), ((1 : ℤ), (2 : ℤ)))
        (List.mem_cons_of_mem _ (List.mem_cons_self _ _))
    exact ⟨h.1, h.2 (by decide)⟩

unseal Rat.add Rat.sub Rat.mul Rat.inv Rat.ofScientific in
/-- **C9 (counterexample).** Ties are NOT broken by insertion order.  On the
3×3 grid with the single obstacle `(1, 1)`, zero safety, start `(0, 1)` and
goal `(2, 1)`, the start expansion leaves the open set with the
equal-priority tie `{(1, 0), (1, 2)}` (both entries carry
`f = 1.414 + √2`, and `(1, 2)` — offset `(1, 1)` — is pushed before
`(1, 0)` — offset `(1, -1)`).  The code pops the lexicographically smaller
`(1, 0)` and returns the path through `(1, 0)`, while the claim's
insertion-order pop takes `(1, 2)` and returns the path through `(1, 2)`:
the two tie-break rules give observably different routes. -/
theorem C9_counterexample :
    astar_search 3 3 (fun c => if c = (1, 1) then 1 else 0) (fun _ => 0)
        (0, 1) (2, 1) 10 = some [(1, 0), (2, 1)] ∧
      astar_searchIns 3 3 (fun c => if c = (1, 1) then 1 else 0) (fun _ => 0)
        (0, 1) (2, 1) 10 = some [(1, 2), (2, 1)] ∧
      some [((1 : ℤ), (0 : ℤ)), (2, 1)] ≠ some [((1 : ℤ), (2 : ℤ)), (2, 1)] :=
  ⟨by decide, by decide, by decide⟩

/-! ### C3: the navigability grid reads only the eastward component -/

/-- **C3 (counterexample).** A field whose northward component `v` is NaN at
cell `(0,0)` while `u` is defined there: the field is undefined at `(0,0)` in
the spec's sense, but the source's grid (line 62, which tests only `water_u`)
does not mark the cell as an obstacle — refuting "obstacle iff either
component is NaN". -/
theorem C3_counterexample :
    fieldUndefinedSpec (fun _ => some 0) (fun _ => none) (0, 0) ∧
      gridOf (fun _ => some 0) (0, 0) ≠ 1 := by
  constructor
  · exact Or.inr rfl
  · decide

/-- **C3 (amended).** The navigability grid marks `(r,c)` as an obstacle iff
the *eastward* velocity component `u` is the NaN missing sentinel there; the
northward component `v` is not consulted (the grid is a function of `u`
alone). -/
theorem C3_grid_tracks_only_u (u : Cell → Option ℚ) (c : Cell) :
    gridOf u c = 1 ↔ u c = none := by
  unfold gridOf
  constructor
  · intro h
    by_contra hu
    rw [if_neg hu] at h
    exact absurd h (by decide)
  · intro hu
    rw [if_pos hu]

/-! ### C2: start cell equal to goal cell -/

/-- When the start cell equals the goal cell, the very first pop of the open
heap is the goal, `came_from` is empty, and `astar_search` returns the empty
list — which the caller then treats as "no path". -/
theorem astar_search_start_eq_goal (R C : ℕ) (grid : Cell → ℕ) (safety : Cell → ℚ)
    (s : Cell) (fuel : ℕ) (hfuel : 1 ≤ fuel) :
    astar_search R C grid safety s s fuel = some [] := by
  obtain ⟨f, rfl⟩ : ∃ f, fuel = f + 1 :=
    ⟨fuel - 1, (Nat.succ_pred_eq_of_pos hfuel).symm⟩
  rw [astar_search, astarLoop]
  simp [findMin, reconstructPath]

unseal Rat.add Rat.sub Rat.mul Rat.inv Rat.ofScientific in
/-- **C2.** Code bug at the failing input "start coordinate and goal
coordinate resolve to the same grid cell": on a 2×2 all-water field with both
query coordinates at `(0,0)`, `astar_search` returns the empty path (even with
fuel for a single iteration, i.e. without expanding any neighbour), and the
planner therefore reports the "Path not found" failure (`some none`) instead
of the 2-element path with cost 0 that the spec requires. -/
theorem C2_start_eq_goal_reports_failure :
    astar_search 2 2 (gridOf fun _ => some 0) (fun _ => 0) (0, 0) (0, 0) 1 = some [] ∧
      planRoute [0, 1] [0, 1] (fun _ => some 0) (fun _ => 0) 0 0 0 0 20 = some none := by
  exact ⟨astar_search_start_eq_goal 2 2 _ _ (0, 0) 1 le_rfl, by decide⟩

/-! ### C6: a field with no navigable cells -/

theorem argminIdx_eq_zero (f : ℕ → ℚ) (n : ℕ) (hn : 0 < n)
    (h : ∀ i < n, f 0 ≤ f i) : argminIdx f n = 0 := by
  by_contra ha
  have h0 : 0 < argminIdx f n := Nat.pos_of_ne_zero ha
  have h1 : f (argminIdx f n) < f 0 := argminIdx_first f n 0 h0
  have h2 : f 0 ≤ f (argminIdx f n) := h _ (argminIdx_lt f n hn)
  exact absurd (lt_of_le_of_lt h2 h1) (lt_irrefl _)

/-- On a grid whose in-bounds cells are all obstacles, `get_water_idx` does
not fail: every distance-array entry is the `1e9` sentinel (squared: `1e18`),
so the row-major `argmin` lands on the flattened index `0` and the resolver
returns cell `(0,0)` — an obstacle. -/
theorem get_water_idx_all_obstacle (R C : ℕ) (grid : Cell → ℕ)
    (hR : 0 < R) (hC : 0 < C)
    (hobs : ∀ r c : ℤ, 0 ≤ r → r < (R : ℤ) → 0 ≤ c → c < (C : ℤ) → grid (r, c) = 1)
    (iy ix : ℤ) (hiy₀ : 0 ≤ iy) (hiy : iy < (R : ℤ)) (hix₀ : 0 ≤ ix) (hix : ix < (C : ℤ)) :
    get_water_idx R C grid iy ix = (0, 0) := by
  rw [get_water_idx]
  rw [if_neg (by rw [hobs iy ix hiy₀ hiy hix₀ hix]; exact one_ne_zero)]
  have hval : ∀ k < R * C, gwDists C grid iy ix k = (1e18 : ℚ) := by
    intro k hk
    have hr : k / C < R := Nat.div_lt_of_lt_mul (by rwa [Nat.mul_comm] at hk)
    have hc : k % C < C := Nat.mod_lt k hC
    rw [gwDists, if_pos (hobs _ _ (Int.ofNat_nonneg _) (by exact_mod_cast hr)
      (Int.ofNat_nonneg _) (by exact_mod_cast hc))]
  have hzero : argminIdx (gwDists C grid iy ix) (R * C) = 0 := by
    apply argminIdx_eq_zero _ _ (Nat.mul_pos hR hC)
    intro i hi
    rw [hval 0 (Nat.mul_pos hR hC), hval i hi]
  rw [hzero]
  simp

/-- **C6 (amended).** On a field whose navigability grid contains no navigable
cells (and nonempty coordinate arrays), the planner does *not* surface a
distinct "no navigable region" failure: resolution silently returns the
obstacle cell `(0,0)` for both endpoints, the search immediately returns the
empty path, and the planner reports the generic "Path not found" outcome
(`some none`). -/
theorem C6_no_navigable_region_not_distinct (lats lons : List ℚ) (u : Cell → Option ℚ)
    (safety : Cell → ℚ) (s_lat s_lon e_lat e_lon : ℚ) (fuel : ℕ)
    (hlat : lats ≠ []) (hlon : lons ≠ []) (hfuel : 1 ≤ fuel)
    (hu : ∀ r c : ℤ, 0 ≤ r → r < (lats.length : ℤ) → 0 ≤ c → c < (lons.length : ℤ) →
      u (r, c) = none) :
    planRoute lats lons u safety s_lat s_lon e_lat e_lon fuel = some none := by
  have hR : 0 < lats.length := List.length_pos.mpr hlat
  have hC : 0 < lons.length := List.length_pos.mpr hlon
  have hobs : ∀ r c : ℤ, 0 ≤ r → r < (lats.length : ℤ) → 0 ≤ c → c < (lons.length : ℤ) →
      gridOf u (r, c) = 1 := by
    intro r c h1 h2 h3 h4
    rw [gridOf, if_pos (hu r c h1 h2 h3 h4)]
  have hres : ∀ lat lon : ℚ, resolveCoord lats lons u lat lon = (0, 0) := by
    intro lat lon
    rw [resolveCoord]
    exact get_water_idx_all_obstacle _ _ _ hR hC hobs _ _
      (Int.ofNat_nonneg _) (by exact_mod_cast argminIdx_lt _ _ hR)
      (Int.ofNat_nonneg _) (by exact_mod_cast argminIdx_lt _ _ hC)
  rw [planRoute, hres, hres, astar_search_start_eq_goal _ _ _ _ _ _ hfuel]
  rfl

unseal Rat.add Rat.sub Rat.mul Rat.inv Rat.ofScientific in
/-- **C6 (counterexample).** A concrete 1×1 field with no navigable cell: the
resolver returns the obstacle cell `(0,0)` instead of failing, and the planner
reports the generic "Path not found" outcome (`some none`) — there is no
distinct "no navigable region" failure in the code. -/
theorem C6_counterexample :
    gridOf (fun _ => (none : Option ℚ)) (0, 0) = 1 ∧
      get_water_idx 1 1 (gridOf fun _ => (none : Option ℚ)) 0 0 = (0, 0) ∧
      planRoute [0] [0] (fun _ => (none : Option ℚ)) (fun _ => 0) 0 0 0 0 1 = some none := by
  refine ⟨by decide, by decide, by decide⟩

unseal Rat.add Rat.sub Rat.mul Rat.inv Rat.ofScientific in
/-- Witness for C6 (amended): the amended theorem applied to the concrete 1×1
all-obstacle field. -/
theorem C6_no_navigable_region_not_distinct_witness :
    planRoute [0] [0] (fun _ => (none : Option ℚ)) (fun _ => 0) 0 0 0 0 1 = some none :=
  C6_no_navigable_region_not_distinct [0] [0] (fun _ => none) (fun _ => 0) 0 0 0 0 1
    (by decide) (by decide) le_rfl (fun _ _ _ _ _ _ => rfl)

/-! ### C8: returned paths never contain an obstacle cell -/

theorem lookup_mem {α β : Type} [BEq α] [LawfulBEq α] {l : List (α × β)} {k : α} {v : β}
    (h : l.lookup k = some v) : (k, v) ∈ l := by
  obtain ⟨l₁, l₂, rfl, -⟩ := List.lookup_eq_some_iff.mp h
  exact List.mem_append.mpr (Or.inr (List.mem_cons_self _ _))

/-- Every key of `came_from` was recorded as an in-bounds, non-obstacle
neighbour (lines 39–45). -/
def CameOK (R C : ℕ) (grid : Cell → ℕ) (came : List (Cell × Cell)) : Prop :=
  ∀ p ∈ came, inBounds R C p.1 ∧ grid p.1 ≠ 1

theorem expandNeighbor_cameOK (R C : ℕ) (grid : Cell → ℕ) (safety : Cell → ℚ)
    (goal cur : Cell) (gcur : ℚ) (st : AState) (off : Cell)
    (hC : CameOK R C grid st.came) :
    CameOK R C grid (expandNeighbor R C grid safety goal cur gcur st off).came := by
  rw [expandNeighbor]
  split
  next hb =>
    split
    next => exact hC
    next hg =>
      split
      next =>
        intro p hp
        rcases List.mem_cons.mp hp with rfl | hp
        · exact ⟨hb, hg⟩
        · exact hC p hp
      next => exact hC
  next => exact hC

theorem foldl_expandNeighbor_cameOK (R C : ℕ) (grid : Cell → ℕ) (safety : Cell → ℚ)
    (goal cur : Cell) (gcur : ℚ) (offs : List Cell) :
    ∀ st : AState, CameOK R C grid st.came →
      CameOK R C grid ((offs.foldl (expandNeighbor R C grid safety goal cur gcur) st).came) := by
  induction offs with
  | nil => intro st h; exact h
  | cons o t ih =>
    intro st h
    exact ih _ (expandNeighbor_cameOK R C grid safety goal cur gcur st o h)

theorem reconstructPath_forall (came : List (Cell × Cell)) (P : Cell → Prop)
    (hkeys : ∀ p ∈ came, P p.1) :
    ∀ (fuel : ℕ) (cur : Cell) (acc path : List Cell), (∀ c ∈ acc, P c) →
      reconstructPath came cur fuel acc = some path → ∀ c ∈ path, P c := by
  intro fuel
  induction fuel with
  | zero =>
    intro cur acc path hacc h
    rw [reconstructPath] at h
    cases hl : came.lookup cur with
    | none => rw [hl] at h; injection h with h; subst h; exact hacc
    | some p => rw [hl] at h; exact absurd h (by simp)
  | succ f ih =>
    intro cur acc path hacc h
    rw [reconstructPath] at h
    cases hl : came.lookup cur with
    | none => rw [hl] at h; injection h with h; subst h; exact hacc
    | some p =>
      rw [hl] at h
      refine ih p (cur :: acc) path ?_ h
      intro c hc
      rcases List.mem_cons.mp hc with rfl | hc
      · exact hkeys _ (lookup_mem hl)
      · exact hacc c hc

theorem astarLoop_path_ok (R C : ℕ) (grid : Cell → ℕ) (safety : Cell → ℚ) (goal : Cell) :
    ∀ (fuel : ℕ) (st : AState) (path : List Cell), CameOK R C grid st.came →
      astarLoop R C grid safety goal fuel st = some path →
      ∀ c ∈ path, inBounds R C c ∧ grid c ≠ 1 := by
  intro fuel
  induction fuel with
  | zero => intro st path _ h; exact absurd h (by simp [astarLoop])
  | succ m ih =>
    intro st path hC h
    obtain ⟨heap, came, g⟩ := st
    cases heap with
    | nil =>
      rw [astarLoop] at h
      injection h with h; subst h
      intro c hc
      exact absurd hc (List.not_mem_nil c)
    | cons x t =>
      rw [astarLoop] at h
      by_cases hg : (findMin x t).2 = goal
      · rw [if_pos hg] at h
        exact reconstructPath_forall came (fun c => inBounds R C c ∧ grid c ≠ 1) hC
          _ _ [] path (by intro c hc; cases hc) h
      · rw [if_neg hg] at h
        refine ih _ path ?_ h
        exact foldl_expandNeighbor_cameOK R C grid safety goal _ _ neighborOffsets _ hC

/-- **C8.** Every cell on a path returned by `astar_search` is in bounds and
is not an obstacle cell of the navigability grid: `came_from` keys are only
ever neighbours that passed the bounds check and the `grid == 1` test, and the
reconstructed path consists of such keys. -/
theorem C8_path_avoids_obstacles (R C : ℕ) (grid : Cell → ℕ) (safety : Cell → ℚ)
    (start goal : Cell) (fuel : ℕ) (path : List Cell)
    (h : astar_search R C grid safety start goal fuel = some path) :
    ∀ c ∈ path, inBounds R C c ∧ grid c ≠ 1 :=
  astarLoop_path_ok R C grid safety goal fuel _ path (by intro p hp; cases hp) h

unseal Rat.add Rat.sub Rat.mul Rat.inv Rat.ofScientific in
/-- Witness for C8: the concrete 2×2 all-water run returns `[(1,1)]`, whose
only cell is in bounds and navigable. -/
theorem C8_path_avoids_obstacles_witness :
    astar_search 2 2 (gridOf fun _ => some 0) (fun _ => 0) (0, 0) (1, 1) 20 =
        some [(1, 1)] ∧
      ∀ c ∈ [((1 : ℤ), (1 : ℤ))], inBounds 2 2 c ∧ gridOf (fun _ => some 0) c ≠ 1 :=
  ⟨by decide,
    C8_path_avoids_obstacles 2 2 (gridOf fun _ => some 0) (fun _ => 0) (0, 0) (1, 1) 20
      [(1, 1)] (by decide)⟩

/-! ### C7: shape of a successful plan -/

/-- **C7.** Every successful plan is the sequence of `(lat, lon)` pairs
consisting of the caller's requested start coordinate, the coordinate-array
lookups of the cells of the discovered route (in order), and the caller's
requested goal coordinate: its length is at least 2, its first element is the
requested start, its last element is the requested goal, and every interior
element is the coordinate-array lookup of a cell on the discovered route. -/
theorem C7_success_path_shape (lats lons : List ℚ) (u : Cell → Option ℚ)
    (safety : Cell → ℚ) (s_lat s_lon e_lat e_lon : ℚ) (fuel : ℕ) (plat plon : List ℚ)
    (h : planRoute lats lons u safety s_lat s_lon e_lat e_lon fuel =
      some (some (plat, plon))) :
    ∃ route : List Cell,
      route ≠ [] ∧
      astar_search lats.length lons.length (gridOf u) safety
        (resolveCoord lats lons u s_lat s_lon) (resolveCoord lats lons u e_lat e_lon)
        fuel = some route ∧
      plat.zip plon =
        (s_lat, s_lon) ::
          (route.map (fun i => (lats.getD i.1.toNat 0, lons.getD i.2.toNat 0)) ++
            [(e_lat, e_lon)]) ∧
      2 ≤ (plat.zip plon).length ∧
      (plat.zip plon).head? = some (s_lat, s_lon) ∧
      (plat.zip plon).getLast? = some (e_lat, e_lon) := by
  unfold planRoute at h
  split at h
  next => exact absurd h (by simp)
  next p ha =>
    split at h
    next => exact absurd (Option.some_inj.mp h) (by simp)
    next hp =>
      have hpair := Option.some_inj.mp (Option.some_inj.mp h)
      have hlat : plat = [s_lat] ++ p.map (fun i => lats.getD i.1.toNat 0) ++ [e_lat] :=
        (congrArg Prod.fst hpair).symm
      have hlon : plon = [s_lon] ++ p.map (fun i => lons.getD i.2.toNat 0) ++ [e_lon] :=
        (congrArg Prod.snd hpair).symm
      have hzip : plat.zip plon =
          (s_lat, s_lon) ::
            (p.map (fun i => (lats.getD i.1.toNat 0, lons.getD i.2.toNat 0)) ++
              [(e_lat, e_lon)]) := by
        rw [hlat, hlon]
        rw [List.singleton_append, List.singleton_append,
          List.cons_append, List.cons_append, List.zip_cons_cons,
          List.zip_append (by simp), List.zip_map']
        rfl
      refine ⟨p, by simpa using hp, ha, hzip, ?_, ?_, ?_⟩
      · rw [hzip]
        simp
      · rw [hzip]
        rfl
      · rw [hzip, ← List.cons_append, List.getLast?_concat]

unseal Rat.add Rat.sub Rat.mul Rat.inv Rat.ofScientific in
/-- Witness for C7: the concrete successful 2×2 all-water plan. -/
theorem C7_success_path_shape_witness :
    ∃ route : List Cell,
      route ≠ [] ∧
      astar_search ([(0 : ℚ), 1]).length ([(0 : ℚ), 1]).length
        (gridOf fun _ => some 0) (fun _ => 0)
        (resolveCoord [0, 1] [0, 1] (fun _ => some 0) 0 0)
        (resolveCoord [0, 1] [0, 1] (fun _ => some 0) 1 1) 20 = some route ∧
      ([(0 : ℚ), 1, 1]).zip [(0 : ℚ), 1, 1] =
        ((0 : ℚ), (0 : ℚ)) ::
          (route.map (fun i => (([(0 : ℚ), 1]).getD i.1.toNat 0,
            ([(0 : ℚ), 1]).getD i.2.toNat 0)) ++ [((1 : ℚ), (1 : ℚ))]) ∧
      2 ≤ (([(0 : ℚ), 1, 1]).zip [(0 : ℚ), 1, 1]).length ∧
      (([(0 : ℚ), 1, 1]).zip [(0 : ℚ), 1, 1]).head? = some ((0 : ℚ), (0 : ℚ)) ∧
      (([(0 : ℚ), 1, 1]).zip [(0 : ℚ), 1, 1]).getLast? = some ((1 : ℚ), (1 : ℚ)) :=
  C7_success_path_shape [0, 1] [0, 1] (fun _ => some 0) (fun _ => 0) 0 0 1 1 20
    [0, 1, 1] [0, 1, 1] (by decide)

/-! ### C5: resolver correctness -/

theorem flat_div (a b C : ℕ) (hb : b < C) : (a * C + b) / C = a := by
  have hC : 0 < C := Nat.lt_of_le_of_lt (Nat.zero_le b) hb
  rw [Nat.add_comm, Nat.mul_comm, Nat.add_mul_div_left b a hC,
    Nat.div_eq_of_lt hb, Nat.zero_add]

theorem flat_mod (a b C : ℕ) (hb : b < C) : (a * C + b) % C = b := by
  rw [Nat.add_comm, Nat.mul_comm, Nat.add_mul_mod_self_left, Nat.mod_eq_of_lt hb]

theorem gwDists_flat (C : ℕ) (grid : Cell → ℕ) (iy ix : ℤ) (a b : ℕ) (hb : b < C) :
    gwDists C grid iy ix (a * C + b) =
      if grid ((a : ℤ), (b : ℤ)) = 1 then (1e18 : ℚ)
      else ((((a : ℤ) - iy) ^ 2 + ((b : ℤ) - ix) ^ 2 : ℤ) : ℚ) := by
  rw [gwDists, flat_div a b C hb, flat_mod a b C hb]

/-- On a grid whose in-bounds cells all have squared distance to the query
below the (squared) `1e9` sentinel, a navigable in-bounds cell's distance
entry is strictly below the sentinel. -/
theorem gwDists_lt_sentinel (R C : ℕ) (grid : Cell → ℕ) (iy ix : ℤ)
    (hiy₀ : 0 ≤ iy) (hiyR : iy < (R : ℤ)) (hix₀ : 0 ≤ ix) (hixC : ix < (C : ℤ))
    (hsize : ((R : ℤ) - 1) ^ 2 + ((C : ℤ) - 1) ^ 2 < 10 ^ 18)
    (a b : ℕ) (ha : a < R) (hb : b < C) (hnav : grid ((a : ℤ), (b : ℤ)) ≠ 1) :
    gwDists C grid iy ix (a * C + b) =
        ((((a : ℤ) - iy) ^ 2 + ((b : ℤ) - ix) ^ 2 : ℤ) : ℚ) ∧
      gwDists C grid iy ix (a * C + b) < (1e18 : ℚ) := by
  have heq : gwDists C grid iy ix (a * C + b) =
      ((((a : ℤ) - iy) ^ 2 + ((b : ℤ) - ix) ^ 2 : ℤ) : ℚ) := by
    rw [gwDists_flat C grid iy ix a b hb, if_neg hnav]
  refine ⟨heq, ?_⟩
  rw [heq]
  have hsq : ((a : ℤ) - iy) ^ 2 + ((b : ℤ) - ix) ^ 2 < 10 ^ 18 := by
    have ha' : (a : ℤ) < (R : ℤ) := by exact_mod_cast ha
    have hb' : (b : ℤ) < (C : ℤ) := by exact_mod_cast hb
    have h1 : ((a : ℤ) - iy) ^ 2 ≤ ((R : ℤ) - 1) ^ 2 := by
      apply sq_le_sq'
      · have : (a : ℤ) ≥ 0 := Int.ofNat_nonneg a
        omega
      · omega
    have h2 : ((b : ℤ) - ix) ^ 2 ≤ ((C : ℤ) - 1) ^ 2 := by
      apply sq_le_sq'
      · have : (b : ℤ) ≥ 0 := Int.ofNat_nonneg b
        omega
      · omega
    omega
  have : ((10 : ℤ) ^ 18 : ℚ) = (1e18 : ℚ) := by norm_num
  rw [← this]
  exact_mod_cast hsq

/-- **C5 (amended).** For every grid containing an in-bounds navigable cell,
every in-bounds queried index, *and every grid small enough that all in-bounds
squared distances stay below the squared `1e9` sentinel* (e.g. any grid with
`(R-1)² + (C-1)² < 10¹⁸`): if the queried cell is navigable the resolver
returns it unchanged; otherwise it returns an in-bounds navigable cell of
minimum Euclidean distance to the query, and among equidistant navigable
candidates the one first in row-major scan order.  (Without the size bound the
`1e9` sentinel assigned to obstacle cells can be ≤ a navigable cell's true
distance, and the resolver can return an obstacle cell — see the
counterexample.) -/
theorem C5_resolver_correct (R C : ℕ) (grid : Cell → ℕ) (iy ix : ℤ)
    (hiy₀ : 0 ≤ iy) (hiyR : iy < (R : ℤ)) (hix₀ : 0 ≤ ix) (hixC : ix < (C : ℤ))
    (hsize : ((R : ℤ) - 1) ^ 2 + ((C : ℤ) - 1) ^ 2 < 10 ^ 18)
    (hnav : ∃ a b : ℕ, a < R ∧ b < C ∧ grid ((a : ℤ), (b : ℤ)) ≠ 1) :
    (grid (iy, ix) = 0 → get_water_idx R C grid iy ix = (iy, ix)) ∧
    (grid (iy, ix) ≠ 0 →
      inBounds R C (get_water_idx R C grid iy ix) ∧
      grid (get_water_idx R C grid iy ix) ≠ 1 ∧
      (∀ a b : ℤ, 0 ≤ a → a < (R : ℤ) → 0 ≤ b → b < (C : ℤ) → grid (a, b) ≠ 1 →
        ((get_water_idx R C grid iy ix).1 - iy) ^ 2 +
            ((get_water_idx R C grid iy ix).2 - ix) ^ 2 ≤
          (a - iy) ^ 2 + (b - ix) ^ 2 ∧
        ((a - iy) ^ 2 + (b - ix) ^ 2 =
            ((get_water_idx R C grid iy ix).1 - iy) ^ 2 +
              ((get_water_idx R C grid iy ix).2 - ix) ^ 2 →
          (get_water_idx R C grid iy ix).1 * (C : ℤ) + (get_water_idx R C grid iy ix).2 ≤
            a * (C : ℤ) + b))) := by
  constructor
  · intro h0
    rw [get_water_idx, if_pos h0]
  · intro hobs
    obtain ⟨a₀, b₀, ha₀, hb₀, hnav₀⟩ := hnav
    have hC : 0 < C := Nat.lt_of_le_of_lt (Nat.zero_le b₀) hb₀
    have hR : 0 < R := Nat.lt_of_le_of_lt (Nat.zero_le a₀) ha₀
    have hRC : 0 < R * C := Nat.mul_pos hR hC
    -- the resolver takes the argmin branch
    rw [get_water_idx, if_neg hobs]
    set k₀ := argminIdx (gwDists C grid iy ix) (R * C) with hk₀def
    have hk₀ : k₀ < R * C := argminIdx_lt _ _ hRC
    have hflat₀ : k₀ / C < R := Nat.div_lt_of_lt_mul (by rwa [Nat.mul_comm] at hk₀)
    have hmod₀ : k₀ % C < C := Nat.mod_lt k₀ hC
    have hsplit : k₀ / C * C + k₀ % C = k₀ := by
      rw [Nat.mul_comm]
      exact Nat.div_add_mod k₀ C
    -- the navigable witness cell's entry is below the sentinel
    obtain ⟨hw_eq, hw_lt⟩ := gwDists_lt_sentinel R C grid iy ix hiy₀ hiyR hix₀ hixC hsize
      a₀ b₀ ha₀ hb₀ hnav₀
    have hwidx : a₀ * C + b₀ < R * C := by
      calc a₀ * C + b₀ < a₀ * C + C := by omega
      _ = (a₀ + 1) * C := by ring
      _ ≤ R * C := Nat.mul_le_mul_right C (by omega)
    have hmin₀ : gwDists C grid iy ix k₀ ≤ gwDists C grid iy ix (a₀ * C + b₀) :=
      argminIdx_min _ _ _ hwidx
    have hk₀lt : gwDists C grid iy ix k₀ < (1e18 : ℚ) := lt_of_le_of_lt hmin₀ hw_lt
    -- hence the chosen cell is navigable
    have hresnav : grid (((k₀ / C : ℕ) : ℤ), ((k₀ % C : ℕ) : ℤ)) ≠ 1 := by
      intro hcon
      rw [gwDists] at hk₀lt
      rw [if_pos hcon] at hk₀lt
      exact absurd hk₀lt (lt_irrefl _)
    have hreseq : gwDists C grid iy ix k₀ =
        (((((k₀ / C : ℕ) : ℤ) - iy) ^ 2 + (((k₀ % C : ℕ) : ℤ) - ix) ^ 2 : ℤ) : ℚ) := by
      rw [gwDists, if_neg hresnav]
    refine ⟨⟨Int.ofNat_nonneg _,
      (by exact_mod_cast hflat₀ : ((k₀ / C : ℕ) : ℤ) < (R : ℤ)),
      Int.ofNat_nonneg _,
      (by exact_mod_cast hmod₀ : ((k₀ % C : ℕ) : ℤ) < (C : ℤ))⟩, hresnav, ?_⟩
    intro a b ha₁ haR hb₁ hbC hnab
    -- flatten the candidate
    obtain ⟨an, rfl⟩ : ∃ an : ℕ, a = (an : ℤ) := ⟨a.toNat, (Int.toNat_of_nonneg ha₁).symm⟩
    obtain ⟨bn, rfl⟩ : ∃ bn : ℕ, b = (bn : ℤ) := ⟨b.toNat, (Int.toNat_of_nonneg hb₁).symm⟩
    have han : an < R := by exact_mod_cast haR
    have hbn : bn < C := by exact_mod_cast hbC
    obtain ⟨hc_eq, _⟩ := gwDists_lt_sentinel R C grid iy ix hiy₀ hiyR hix₀ hixC hsize
      an bn han hbn hnab
    have hcidx : an * C + bn < R * C := by
      calc an * C + bn < an * C + C := by omega
      _ = (an + 1) * C := by ring
      _ ≤ R * C := Nat.mul_le_mul_right C (by omega)
    have hmin : gwDists C grid iy ix k₀ ≤ gwDists C grid iy ix (an * C + bn) :=
      argminIdx_min _ _ _ hcidx
    constructor
    · rw [hreseq, hc_eq] at hmin
      exact_mod_cast hmin
    · intro htie
      -- on a distance tie the argmin's first-occurrence property forces k₀ ≤ an*C+bn
      have hvals : gwDists C grid iy ix (an * C + bn) = gwDists C grid iy ix k₀ := by
        rw [hreseq, hc_eq]
        exact_mod_cast htie
      have hle : k₀ ≤ an * C + bn := by
        by_contra hgt
        have := argminIdx_first (gwDists C grid iy ix) (R * C) (an * C + bn)
          (by omega)
        rw [hvals] at this
        exact absurd this (lt_irrefl _)
      have : (k₀ : ℤ) ≤ ((an * C + bn : ℕ) : ℤ) := by exact_mod_cast hle
      have hz : ((k₀ / C : ℕ) : ℤ) * (C : ℤ) + ((k₀ % C : ℕ) : ℤ) = (k₀ : ℤ) := by
        exact_mod_cast congrArg (fun n : ℕ => (n : ℤ)) hsplit
      rw [hz]
      push_cast at this
      omega

/-- The adversarially large grid of the C5 counterexample: a single row of
`2·10⁹ + 1` cells whose only navigable cell is at column `2·10⁹`. -/
def gridHuge : Cell → ℕ := fun c => if c = (0, 2 * 10 ^ 9) then 0 else 1

/-- **C5 (counterexample).** On a 1 × (2·10⁹+1) grid whose only navigable
cell is at column 2·10⁹, querying the obstacle cell `(0,0)` makes every
navigable distance entry (4·10¹⁸, squared) exceed the obstacle sentinel
(10¹⁸, squared `1e9`), so the row-major argmin lands on the obstacle cell
`(0,0)` itself: the resolver returns an obstacle even though a navigable cell
exists, refuting the claim as stated for arbitrary grids. -/
theorem C5_counterexample :
    gridHuge (0, 2 * 10 ^ 9) ≠ 1 ∧
      inBounds 1 (2 * 10 ^ 9 + 1) (0, 2 * 10 ^ 9) ∧
      get_water_idx 1 (2 * 10 ^ 9 + 1) gridHuge 0 0 = (0, 0) ∧
      gridHuge (0, 0) = 1 := by
  have hC : (0 : ℕ) < 2 * 10 ^ 9 + 1 := by norm_num
  refine ⟨by rw [gridHuge, if_pos rfl]; exact Nat.zero_ne_one, ⟨by norm_num, by norm_num,
    by norm_num, by norm_num⟩, ?_, by rw [gridHuge, if_neg (by decide)]⟩
  rw [get_water_idx, if_neg (by rw [gridHuge, if_neg (by decide)]; norm_num)]
  have hval : ∀ k, k < 1 * (2 * 10 ^ 9 + 1) →
      gwDists (2 * 10 ^ 9 + 1) gridHuge 0 0 k =
        if k = 2 * 10 ^ 9 then ((2 * 10 ^ 9 : ℤ) ^ 2 : ℚ) else (1e18 : ℚ) := by
    intro k hk
    have hk' : k < 2 * 10 ^ 9 + 1 := by omega
    have hdiv : k / (2 * 10 ^ 9 + 1) = 0 := Nat.div_eq_of_lt hk'
    have hmod : k % (2 * 10 ^ 9 + 1) = k := Nat.mod_eq_of_lt hk'
    rw [gwDists, hdiv, hmod]
    by_cases hke : k = 2 * 10 ^ 9
    · subst hke
      have hcell : gridHuge (((0 : ℕ) : ℤ), ((2 * 10 ^ 9 : ℕ) : ℤ)) = 0 := by
        rw [gridHuge, if_pos (by norm_num [Prod.ext_iff])]
      rw [hcell, if_neg (by norm_num), if_pos rfl]
      push_cast
      ring_nf
    · have hcell : gridHuge (((0 : ℕ) : ℤ), (k : ℤ)) = 1 := by
        rw [gridHuge, if_neg]
        intro hcon
        rw [Prod.mk.injEq] at hcon
        exact hke (by exact_mod_cast hcon.2)
      rw [hcell, if_pos rfl, if_neg hke]
  have hzero : argminIdx (gwDists (2 * 10 ^ 9 + 1) gridHuge 0 0)
      (1 * (2 * 10 ^ 9 + 1)) = 0 := by
    apply argminIdx_eq_zero _ _ (by norm_num)
    intro i hi
    rw [hval 0 (by norm_num), hval i hi]
    by_cases hie : i = 2 * 10 ^ 9
    · rw [if_pos hie, if_neg (by norm_num)]
      push_cast
      norm_num
    · rw [if_neg hie, if_neg (by norm_num)]
  rw [hzero]
  norm_num

/-- Witness for C5 (amended): on a concrete 2×2 grid whose only obstacle is
the queried cell `(0,0)`, the hypotheses hold and the theorem applies. -/
theorem C5_resolver_correct_witness :
    (gridOf (fun c => if c = ((0 : ℤ), (0 : ℤ)) then none else some 0) ((0 : ℤ), (0 : ℤ)) = 0 →
      get_water_idx 2 2 (gridOf fun c => if c = ((0 : ℤ), (0 : ℤ)) then none else some 0) 0 0 =
        (0, 0)) ∧
    (gridOf (fun c => if c = ((0 : ℤ), (0 : ℤ)) then none else some 0) ((0 : ℤ), (0 : ℤ)) ≠ 0 →
      inBounds 2 2 (get_water_idx 2 2
          (gridOf fun c => if c = ((0 : ℤ), (0 : ℤ)) then none else some 0) 0 0) ∧
      gridOf (fun c => if c = ((0 : ℤ), (0 : ℤ)) then none else some 0)
          (get_water_idx 2 2
            (gridOf fun c => if c = ((0 : ℤ), (0 : ℤ)) then none else some 0) 0 0) ≠ 1 ∧
      (∀ a b : ℤ, 0 ≤ a → a < (2 : ℤ) → 0 ≤ b → b < (2 : ℤ) →
        gridOf (fun c => if c = ((0 : ℤ), (0 : ℤ)) then none else some 0) (a, b) ≠ 1 →
        ((get_water_idx 2 2 (gridOf fun c => if c = ((0 : ℤ), (0 : ℤ)) then none else some 0)
              0 0).1 - 0) ^ 2 +
            ((get_water_idx 2 2 (gridOf fun c => if c = ((0 : ℤ), (0 : ℤ)) then none else some 0)
              0 0).2 - 0) ^ 2 ≤ (a - 0) ^ 2 + (b - 0) ^ 2 ∧
        ((a - 0) ^ 2 + (b - 0) ^ 2 =
            ((get_water_idx 2 2 (gridOf fun c => if c = ((0 : ℤ), (0 : ℤ)) then none else some 0)
              0 0).1 - 0) ^ 2 +
              ((get_water_idx 2 2 (gridOf fun c => if c = ((0 : ℤ), (0 : ℤ)) then none else some 0)
                0 0).2 - 0) ^ 2 →
          (get_water_idx 2 2 (gridOf fun c => if c = ((0 : ℤ), (0 : ℤ)) then none else some 0)
              0 0).1 * (2 : ℤ) +
            (get_water_idx 2 2 (gridOf fun c => if c = ((0 : ℤ), (0 : ℤ)) then none else some 0)
              0 0).2 ≤ a * (2 : ℤ) + b))) :=
  C5_resolver_correct 2 2 (gridOf fun c => if c = ((0 : ℤ), (0 : ℤ)) then none else some 0)
    0 0 (by decide) (by decide) (by decide) (by decide) (by decide)
    ⟨0, 1, by decide, by decide, by decide⟩

/-! ### C4: the safety field -/

/-- The flattened (row-major) indices of the obstacle cells of an `R × C`
grid: the zeros of the array `1 - grid` passed to the distance transform at
line 63 — its *background* (feature) pixels. -/
def obstacleList (R C : ℕ) (grid : Cell → ℕ) : List ℕ :=
  (List.range (R * C)).filter (fun k => grid (((k / C : ℕ) : ℤ), ((k % C : ℕ) : ℤ)) = 1)

/-- The squared value of `scipy.ndimage.distance_transform_edt(1 - grid)` at
`cell`.  `distance_transform_edt` computes the exact Euclidean distance from
each pixel to the nearest background (zero) pixel via an integer feature
transform: `ft` holds the int32 coordinates of the nearest background pixel
and the distance is `sqrt(sum((ft - indices)**2))`.  When the input has *no*
background pixel at all, the feature transform leaves every `ft` entry at its
`-1` initialisation sentinel, so the "distance" produced is the (finite)
distance to the virtual pixel `(-1, -1)` — it is never infinite, since `ft`
is an integer coordinate array. -/
def edtSq (R C : ℕ) (grid : Cell → ℕ) (cell : Cell) : ℤ :=
  match (obstacleList R C grid).map
      (fun k => (((k / C : ℕ) : ℤ) - cell.1) ^ 2 + (((k % C : ℕ) : ℤ) - cell.2) ^ 2) with
  | [] => (cell.1 + 1) ^ 2 + (cell.2 + 1) ^ 2
  | d :: ds => ds.foldl min d

/-- The safety field of line 64: `safety_map = np.exp(-dist_from_land / 0.5)`
where `dist_from_land = distance_transform_edt(1 - grid)` (line 63). -/
noncomputable def safety_map (R C : ℕ) (grid : Cell → ℕ) (cell : Cell) : ℝ :=
  Real.exp (-Real.sqrt ((edtSq R C grid cell : ℤ) : ℝ) / 0.5)

theorem foldl_min_le_init (ds : List ℤ) : ∀ d : ℤ, ds.foldl min d ≤ d := by
  induction ds with
  | nil => intro d; exact le_refl d
  | cons x t ih =>
    intro d
    exact le_trans (ih (min d x)) (min_le_left d x)

theorem foldl_min_le_mem (ds : List ℤ) : ∀ d x : ℤ, x ∈ ds → ds.foldl min d ≤ x := by
  induction ds with
  | nil => intro d x hx; exact absurd hx (List.not_mem_nil x)
  | cons y t ih =>
    intro d x hx
    rcases List.mem_cons.mp hx with rfl | hx
    · exact le_trans (foldl_min_le_init t (min d x)) (min_le_right d x)
    · exact ih (min d y) x hx

theorem foldl_min_mem (ds : List ℤ) : ∀ d : ℤ, ds.foldl min d = d ∨ ds.foldl min d ∈ ds := by
  induction ds with
  | nil => intro d; exact Or.inl rfl
  | cons x t ih =>
    intro d
    rcases ih (min d x) with h | h
    · rcases min_choice d x with hm | hm
      · rw [List.foldl_cons, h, hm]
        exact Or.inl rfl
      · rw [List.foldl_cons, h, hm]
        exact Or.inr (List.mem_cons_self x t)
    · exact Or.inr (List.mem_cons_of_mem x h)

theorem mem_obstacleList_iff (R C : ℕ) (grid : Cell → ℕ) (k : ℕ) :
    k ∈ obstacleList R C grid ↔
      k < R * C ∧ grid (((k / C : ℕ) : ℤ), ((k % C : ℕ) : ℤ)) = 1 := by
  rw [obstacleList, List.mem_filter, List.mem_range]
  simp

/-- **C4 (amended).** The safety field: (i) on a grid with at least one
in-bounds obstacle cell, every cell's safety value is `exp(-d / 0.5)` where
`d` is the minimum Euclidean grid-index distance to an obstacle cell, and
obstacle cells themselves (distance 0) have safety exactly 1; (ii) on a grid
with *zero* obstacle cells, the safety field is *not* all-zero: the distance
transform's integer feature array is left at its `-1` sentinel, producing the
finite distance `√((r+1)² + (c+1)²)` to the virtual corner `(-1, -1)`, so
every safety value equals `exp(-√((r+1)²+(c+1)²) / 0.5) > 0`. -/
theorem C4_safety_field (R C : ℕ) (grid : Cell → ℕ) (r c : ℕ) (hr : r < R) (hc : c < C) :
    ((∃ a b : ℕ, a < R ∧ b < C ∧ grid ((a : ℤ), (b : ℤ)) = 1) →
      (∃ d : ℝ, 0 ≤ d ∧
        (∀ a b : ℕ, a < R → b < C → grid ((a : ℤ), (b : ℤ)) = 1 →
          d ≤ Real.sqrt (((a : ℝ) - (r : ℝ)) ^ 2 + ((b : ℝ) - (c : ℝ)) ^ 2)) ∧
        (∃ a b : ℕ, a < R ∧ b < C ∧ grid ((a : ℤ), (b : ℤ)) = 1 ∧
          d = Real.sqrt (((a : ℝ) - (r : ℝ)) ^ 2 + ((b : ℝ) - (c : ℝ)) ^ 2)) ∧
        safety_map R C grid ((r : ℤ), (c : ℤ)) = Real.exp (-d / 0.5)) ∧
      (grid ((r : ℤ), (c : ℤ)) = 1 → safety_map R C grid ((r : ℤ), (c : ℤ)) = 1)) ∧
    ((∀ a b : ℕ, a < R → b < C → grid ((a : ℤ), (b : ℤ)) ≠ 1) →
      safety_map R C grid ((r : ℤ), (c : ℤ)) =
          Real.exp (-Real.sqrt (((r : ℝ) + 1) ^ 2 + ((c : ℝ) + 1) ^ 2) / 0.5) ∧
        0 < safety_map R C grid ((r : ℤ), (c : ℤ))) := by
  have hC : 0 < C := Nat.lt_of_le_of_lt (Nat.zero_le c) hc
  have hR : 0 < R := Nat.lt_of_le_of_lt (Nat.zero_le r) hr
  constructor
  · intro ⟨a₀, b₀, ha₀, hb₀, hg₀⟩
    -- the obstacle list is nonempty, so `edtSq` is the fold minimum
    have hmem₀ : a₀ * C + b₀ ∈ obstacleList R C grid := by
      rw [mem_obstacleList_iff, flat_div a₀ b₀ C hb₀, flat_mod a₀ b₀ C hb₀]
      refine ⟨?_, hg₀⟩
      calc a₀ * C + b₀ < a₀ * C + C := by omega
      _ = (a₀ + 1) * C := by ring
      _ ≤ R * C := Nat.mul_le_mul_right C (by omega)
    -- characterise edtSq as a minimum
    have hmain : (∀ a b : ℕ, a < R → b < C → grid ((a : ℤ), (b : ℤ)) = 1 →
          edtSq R C grid ((r : ℤ), (c : ℤ)) ≤
            ((a : ℤ) - (r : ℤ)) ^ 2 + ((b : ℤ) - (c : ℤ)) ^ 2) ∧
        (∃ a b : ℕ, a < R ∧ b < C ∧ grid ((a : ℤ), (b : ℤ)) = 1 ∧
          edtSq R C grid ((r : ℤ), (c : ℤ)) =
            ((a : ℤ) - (r : ℤ)) ^ 2 + ((b : ℤ) - (c : ℤ)) ^ 2) := by
      rw [edtSq]
      cases hmap : (obstacleList R C grid).map
          (fun k => (((k / C : ℕ) : ℤ) - ((r : ℕ) : ℤ)) ^ 2 +
            (((k % C : ℕ) : ℤ) - ((c : ℕ) : ℤ)) ^ 2) with
      | nil =>
        exact absurd (List.map_eq_nil_iff.mp hmap ▸ hmem₀) (List.not_mem_nil _)
      | cons d ds =>
        constructor
        · intro a b ha hb hg
          have hmem : a * C + b ∈ obstacleList R C grid := by
            rw [mem_obstacleList_iff, flat_div a b C hb, flat_mod a b C hb]
            refine ⟨?_, hg⟩
            calc a * C + b < a * C + C := by omega
            _ = (a + 1) * C := by ring
            _ ≤ R * C := Nat.mul_le_mul_right C (by omega)
          have hval : ((a : ℤ) - (r : ℤ)) ^ 2 + ((b : ℤ) - (c : ℤ)) ^ 2 ∈ d :: ds := by
            rw [← hmap]
            refine List.mem_map.mpr ⟨a * C + b, hmem, ?_⟩
            rw [flat_div a b C hb, flat_mod a b C hb]
          rcases List.mem_cons.mp hval with heq | hmem'
          · rw [heq]
            exact foldl_min_le_init ds d
          · exact foldl_min_le_mem ds d _ hmem'
        · have hself : ds.foldl min d ∈ d :: ds := by
            rcases foldl_min_mem ds d with h | h
            · rw [h]; exact List.mem_cons_self d ds
            · exact List.mem_cons_of_mem d h
          rw [← hmap] at hself
          obtain ⟨k, hk, hkval⟩ := List.mem_map.mp hself
          rw [mem_obstacleList_iff] at hk
          obtain ⟨hk1, hk2⟩ := hk
          refine ⟨k / C, k % C, ?_, Nat.mod_lt k hC, hk2, hkval.symm⟩
          exact Nat.div_lt_of_lt_mul (by rwa [Nat.mul_comm] at hk1)
    obtain ⟨hlow, a₁, b₁, ha₁, hb₁, hg₁, heq₁⟩ := hmain
    have hnonneg : (0 : ℤ) ≤ edtSq R C grid ((r : ℤ), (c : ℤ)) := by
      rw [heq₁]
      positivity
    constructor
    · refine ⟨Real.sqrt ((edtSq R C grid ((r : ℤ), (c : ℤ)) : ℤ) : ℝ),
        Real.sqrt_nonneg _, ?_, ?_, rfl⟩
      · intro a b ha hb hg
        have h1 : edtSq R C grid ((r : ℤ), (c : ℤ)) ≤
            ((a : ℤ) - (r : ℤ)) ^ 2 + ((b : ℤ) - (c : ℤ)) ^ 2 := hlow a b ha hb hg
        have h2 : ((edtSq R C grid ((r : ℤ), (c : ℤ)) : ℤ) : ℝ) ≤
            (((a : ℝ) - (r : ℝ)) ^ 2 + ((b : ℝ) - (c : ℝ)) ^ 2) := by
          exact_mod_cast h1
        exact Real.sqrt_le_sqrt h2
      · refine ⟨a₁, b₁, ha₁, hb₁, hg₁, ?_⟩
        congr 1
        exact_mod_cast heq₁
    · intro hself
      have h0 : edtSq R C grid ((r : ℤ), (c : ℤ)) = 0 := by
        have hle : edtSq R C grid ((r : ℤ), (c : ℤ)) ≤ 0 := by
          have := hlow r c hr hc hself
          simpa using this
        omega
      rw [safety_map, h0]
      norm_num

  · intro hnone
    have hempty : obstacleList R C grid = [] := by
      rw [List.eq_nil_iff_forall_not_mem]
      intro k hk
      rw [mem_obstacleList_iff] at hk
      obtain ⟨hk1, hk2⟩ := hk
      have hkdiv : k / C < R := Nat.div_lt_of_lt_mul (by rwa [Nat.mul_comm] at hk1)
      exact hnone (k / C) (k % C) hkdiv (Nat.mod_lt k hC) hk2
    have hedt : edtSq R C grid ((r : ℤ), (c : ℤ)) = ((r : ℤ) + 1) ^ 2 + ((c : ℤ) + 1) ^ 2 := by
      rw [edtSq, hempty]
      rfl
    constructor
    · rw [safety_map, hedt]
      congr 2
      push_cast
      ring
    · exact Real.exp_pos _

/-- Witness for C4 (amended): a concrete 2×2 grid with a single obstacle at
`(0,0)` (for the obstacle branch) — the hypotheses are discharged
concretely. -/
theorem C4_safety_field_witness :
    (0 : ℕ) < 2 ∧ (1 : ℕ) < 2 ∧
      gridOf (fun c => if c = ((0 : ℤ), (0 : ℤ)) then none else some 0) ((0 : ℤ), (0 : ℤ)) = 1 ∧
      ((∃ a b : ℕ, a < 2 ∧ b < 2 ∧
          gridOf (fun c => if c = ((0 : ℤ), (0 : ℤ)) then none else some 0)
            ((a : ℤ), (b : ℤ)) = 1) →
        (∃ d : ℝ, 0 ≤ d ∧
          (∀ a b : ℕ, a < 2 → b < 2 →
            gridOf (fun c => if c = ((0 : ℤ), (0 : ℤ)) then none else some 0)
              ((a : ℤ), (b : ℤ)) = 1 →
            d ≤ Real.sqrt (((a : ℝ) - ((0 : ℕ) : ℝ)) ^ 2 + ((b : ℝ) - ((1 : ℕ) : ℝ)) ^ 2)) ∧
          (∃ a b : ℕ, a < 2 ∧ b < 2 ∧
            gridOf (fun c => if c = ((0 : ℤ), (0 : ℤ)) then none else some 0)
              ((a : ℤ), (b : ℤ)) = 1 ∧
            d = Real.sqrt (((a : ℝ) - ((0 : ℕ) : ℝ)) ^ 2 + ((b : ℝ) - ((1 : ℕ) : ℝ)) ^ 2)) ∧
          safety_map 2 2 (gridOf fun c => if c = ((0 : ℤ), (0 : ℤ)) then none else some 0)
              (((0 : ℕ) : ℤ), ((1 : ℕ) : ℤ)) = Real.exp (-d / 0.5)) ∧
        (gridOf (fun c => if c = ((0 : ℤ), (0 : ℤ)) then none else some 0)
            (((0 : ℕ) : ℤ), ((1 : ℕ) : ℤ)) = 1 →
          safety_map 2 2 (gridOf fun c => if c = ((0 : ℤ), (0 : ℤ)) then none else some 0)
            (((0 : ℕ) : ℤ), ((1 : ℕ) : ℤ)) = 1)) :=
  ⟨by decide, by decide, by decide,
    (C4_safety_field 2 2 (gridOf fun c => if c = ((0 : ℤ), (0 : ℤ)) then none else some 0)
      0 1 (by decide) (by decide)).1⟩

/-- **C4 (counterexample).** A 1×1 all-water field has zero obstacle cells,
yet its safety field is not all-zero: the distance transform yields the
finite distance `√2` to the virtual corner `(-1,-1)`, so
`safety = exp(-√2 / 0.5) ≠ 0` — refuting the claimed all-zero convention. -/
theorem C4_counterexample :
    obstacleList 1 1 (gridOf fun _ => some 0) = [] ∧
      safety_map 1 1 (gridOf fun _ => some 0) (0, 0) =
        Real.exp (-Real.sqrt 2 / 0.5) ∧
      safety_map 1 1 (gridOf fun _ => some 0) (0, 0) ≠ 0 := by
  have hedt : edtSq 1 1 (gridOf fun _ => some 0) (0, 0) = 2 := by decide
  refine ⟨by decide, ?_, ?_⟩
  · rw [safety_map, hedt]
    norm_num
  · rw [safety_map]
    exact Real.exp_ne_zero _

/-! ### C1: step costs, heuristic, and (in)admissibility -/

/-- The real-valued step distance of line 41: `1.414` for a diagonal offset,
`1.0` otherwise.  (The source uses the literal `1.414`, not `√2`.) -/
noncomputable def stepDistR (off : Cell) : ℝ :=
  if off.1 ≠ 0 ∧ off.2 ≠ 0 then 1.414 else 1.0

/-- The cost of a cell path under the code's metric: each step `a → b` costs
`stepDistR (b - a) + safety b * 1.5` (lines 41–43). -/
noncomputable def pathCostR (safety : Cell → ℝ) : List Cell → ℝ
  | [] => 0
  | [_] => 0
  | a :: b :: rest =>
    (stepDistR (b.1 - a.1, b.2 - a.2) + safety b * 1.5) + pathCostR safety (b :: rest)

/-- A path the search could traverse: every step is one of the 8 neighbour
offsets and every cell after the first is in bounds and navigable
(lines 37–40). -/
def ValidSteps (R C : ℕ) (grid : Cell → ℕ) : List Cell → Prop
  | [] => True
  | [_] => True
  | a :: b :: rest =>
    ((b.1 - a.1, b.2 - a.2) ∈ neighborOffsets ∧ inBounds R C b ∧ grid b ≠ 1) ∧
      ValidSteps R C grid (b :: rest)

/-- The heuristic of line 47: `np.linalg.norm(np.array(cell) - np.array(goal))`,
the Euclidean distance between grid indices. -/
noncomputable def heuristic (a b : Cell) : ℝ :=
  Real.sqrt (((a.1 - b.1 : ℤ) : ℝ) ^ 2 + ((a.2 - b.2 : ℤ) : ℝ) ^ 2)

theorem heuristic_eq (a b : Cell) :
    heuristic a b =
      Complex.abs ⟨((a.1 : ℝ) - (b.1 : ℝ)), ((a.2 : ℝ) - (b.2 : ℝ))⟩ := by
  rw [heuristic, Complex.abs_apply, Complex.normSq_mk]
  congr 1
  push_cast
  ring

theorem heuristic_triangle (a b c : Cell) :
    heuristic a c ≤ heuristic a b + heuristic b c := by
  rw [heuristic_eq a c, heuristic_eq a b, heuristic_eq b c]
  have hsum : (⟨((a.1 : ℝ) - (c.1 : ℝ)), ((a.2 : ℝ) - (c.2 : ℝ))⟩ : ℂ) =
      (⟨((a.1 : ℝ) - (b.1 : ℝ)), ((a.2 : ℝ) - (b.2 : ℝ))⟩ : ℂ) +
        (⟨((b.1 : ℝ) - (c.1 : ℝ)), ((b.2 : ℝ) - (c.2 : ℝ))⟩ : ℂ) := by
    apply Complex.ext
    · show ((a.1 : ℝ) - (c.1 : ℝ)) = ((a.1 : ℝ) - (b.1 : ℝ)) + ((b.1 : ℝ) - (c.1 : ℝ))
      ring
    · show ((a.2 : ℝ) - (c.2 : ℝ)) = ((a.2 : ℝ) - (b.2 : ℝ)) + ((b.2 : ℝ) - (c.2 : ℝ))
      ring
  rw [hsum]
  exact Complex.abs.add_le _ _

theorem heuristic_of_diff (a b : Cell) (dx dy : ℤ) (h1 : b.1 - a.1 = dx)
    (h2 : b.2 - a.2 = dy) :
    heuristic a b = Real.sqrt (((dx : ℝ)) ^ 2 + ((dy : ℝ)) ^ 2) := by
  rw [heuristic]
  congr 1
  have e1 : a.1 - b.1 = -dx := by omega
  have e2 : a.2 - b.2 = -dy := by omega
  rw [e1, e2]
  push_cast
  ring

theorem sqrt_two_gt_step : (1.414 : ℝ) < Real.sqrt 2 := by
  rw [show (1.414 : ℝ) = 1.414 from rfl]
  have := (Real.lt_sqrt (by norm_num : (0 : ℝ) ≤ 1.414)).mpr
    (by norm_num : (1.414 : ℝ) ^ 2 < 2)
  exact this

/-- If every cell's weighted safety penalty is at least `√2 - 1.414`, a single
search step costs at least its Euclidean length. -/
theorem heuristic_step_le (a b : Cell) (hoff : (b.1 - a.1, b.2 - a.2) ∈ neighborOffsets)
    (s : ℝ) (hs : Real.sqrt 2 - 1.414 ≤ s * 1.5) :
    heuristic a b ≤ stepDistR (b.1 - a.1, b.2 - a.2) + s * 1.5 := by
  have hgt := sqrt_two_gt_step
  simp only [neighborOffsets, List.mem_cons, List.not_mem_nil, or_false] at hoff
  rcases hoff with h | h | h | h | h | h | h | h <;>
    rw [Prod.mk.injEq] at h <;>
    rw [heuristic_of_diff a b _ _ h.1 h.2, stepDistR, h.1, h.2] <;>
    norm_num <;>
    linarith [hs, hgt]

/-- **C1 (amended).** The diagonal step cost in the code is the literal
`1.414`, not `√2`, so the Euclidean heuristic is *not* unconditionally a
lower bound on remaining cost.  It is admissible whenever every cell's
weighted safety penalty is at least `√2 - 1.414 ≈ 0.000214`: under that
floor, the heuristic from any cell to the last cell of any traversable path
never exceeds the path's cost under the code's metric. -/
theorem C1_admissible_under_safety_floor (R C : ℕ) (grid : Cell → ℕ) (safety : Cell → ℝ)
    (hfloor : ∀ cell : Cell, Real.sqrt 2 - 1.414 ≤ safety cell * 1.5) :
    ∀ (p : List Cell) (a b : Cell), ValidSteps R C grid (a :: p) →
      (a :: p).getLast? = some b →
      heuristic a b ≤ pathCostR safety (a :: p) := by
  intro p
  induction p with
  | nil =>
    intro a b _ hlast
    have hsing : ([a] : List Cell).getLast? = some a := rfl
    rw [hsing] at hlast
    injection hlast with hba
    subst hba
    rw [heuristic_of_diff a a 0 0 (by omega) (by omega), pathCostR]
    norm_num
  | cons c rest ih =>
    intro a b hsteps hlast
    rw [ValidSteps] at hsteps
    obtain ⟨⟨hoff, -, -⟩, hrest⟩ := hsteps
    have hlast' : (c :: rest).getLast? = some b := by
      rwa [List.getLast?_cons_cons] at hlast
    have h1 := heuristic_step_le a c hoff (safety c) (hfloor c)
    have h2 := ih c b hrest hlast'
    have h3 := heuristic_triangle a c b
    rw [pathCostR]
    linarith

/-- The field of the C1 counterexample: a single NaN (land) cell at `(0,0)`
in a 6×7 window, far from the diagonal step `(5,5) → (4,6)`. -/
def uC1 : Cell → Option ℚ := fun c => if c = ((0 : ℤ), (0 : ℤ)) then none else some 0

/-- **C1 (counterexample).** On the 6×7 field with a single obstacle at
`(0,0)`, the single diagonal step `(5,5) → (4,6)` is a traversable path whose
cost under the code's metric (`1.414` plus `1.5 × exp(-√52/0.5)`, a penalty
below `1.5·e⁻¹⁴`) is strictly smaller than the heuristic `√2` from `(5,5)`
to the goal `(4,6)`: the heuristic strictly overestimates the true remaining
cost, refuting the claimed admissibility (and with it, the claim's
optimality-by-admissibility statement and its `√2` step-cost description). -/
theorem C1_counterexample :
    ValidSteps 6 7 (gridOf uC1) [((5 : ℤ), (5 : ℤ)), ((4 : ℤ), (6 : ℤ))] ∧
      gridOf uC1 (5, 5) ≠ 1 ∧
      pathCostR (safety_map 6 7 (gridOf uC1)) [((5 : ℤ), (5 : ℤ)), ((4 : ℤ), (6 : ℤ))] <
        heuristic (5, 5) (4, 6) := by
  refine ⟨?_, by decide, ?_⟩
  · rw [ValidSteps]
    exact ⟨⟨by decide, by decide, by decide⟩, trivial⟩
  · have hedt : edtSq 6 7 (gridOf uC1) ((4 : ℤ), (6 : ℤ)) = 52 := by decide
    rw [pathCostR, pathCostR, safety_map, hedt, stepDistR,
      heuristic_of_diff ((5 : ℤ), (5 : ℤ)) ((4 : ℤ), (6 : ℤ)) (-1) 1
        (by norm_num) (by norm_num)]
    norm_num
    -- goal: 1.414 + exp (-√52 / 0.5) * 1.5 < √2
    have h7 : (7 : ℝ) ≤ Real.sqrt 52 := by
      rw [show (7 : ℝ) = Real.sqrt 49 by
        rw [show (49 : ℝ) = 7 ^ 2 by norm_num, Real.sqrt_sq (by norm_num : (0:ℝ) ≤ 7)]]
      exact Real.sqrt_le_sqrt (by norm_num)
    rw [show -Real.sqrt 52 / (1 / 2 : ℝ) = -2 * Real.sqrt 52 by ring]
    have hexple : Real.exp (-2 * Real.sqrt 52) ≤ Real.exp (-14) := by
      apply Real.exp_le_exp.mpr
      linarith
    have h14 : (1000000 : ℝ) < Real.exp 14 := by
      have he : (2.7182818283 : ℝ) < Real.exp 1 := Real.exp_one_gt_d9
      have hexp14 : Real.exp (14 : ℝ) = Real.exp 1 ^ (14 : ℕ) := by
        rw [← Real.exp_nat_mul]
        norm_num
      have hp : (2.7 : ℝ) ^ (14 : ℕ) ≤ Real.exp 1 ^ (14 : ℕ) :=
        pow_le_pow_left₀ (by norm_num) (by linarith) 14
      have h27 : (1000000 : ℝ) < (2.7 : ℝ) ^ (14 : ℕ) := by norm_num
      rw [hexp14]
      linarith
    have hsmall : Real.exp (-14 : ℝ) < 0.000001 := by
      rw [Real.exp_neg, show (0.000001 : ℝ) = (1000000 : ℝ)⁻¹ by norm_num]
      exact inv_strictAnti₀ (by norm_num) h14
    have hs2 : (1.41415 : ℝ) < Real.sqrt 2 :=
      (Real.lt_sqrt (by norm_num : (0 : ℝ) ≤ 1.41415)).mpr (by norm_num)
    linarith

unseal Rat.add Rat.sub Rat.mul Rat.inv Rat.ofScientific in
/-- Witness for C1 (amended): a constant safety array of value 1 satisfies the
`√2 - 1.414` floor, and the single diagonal path `(0,0) :: [(1,1)]` on a 2×2
all-water grid is traversable, so the heuristic is bounded by its cost. -/
theorem C1_admissible_under_safety_floor_witness :
    (∀ cell : Cell, Real.sqrt 2 - 1.414 ≤ (fun _ : Cell => (1 : ℝ)) cell * 1.5) ∧
      ValidSteps 2 2 (gridOf fun _ => some 0) [((0 : ℤ), (0 : ℤ)), ((1 : ℤ), (1 : ℤ))] ∧
      ([((0 : ℤ), (0 : ℤ)), ((1 : ℤ), (1 : ℤ))]).getLast? = some (1, 1) ∧
      heuristic (0, 0) (1, 1) ≤
        pathCostR (fun _ : Cell => (1 : ℝ)) [((0 : ℤ), (0 : ℤ)), ((1 : ℤ), (1 : ℤ))] := by
  have hfloor : ∀ cell : Cell, Real.sqrt 2 - 1.414 ≤ (fun _ : Cell => (1 : ℝ)) cell * 1.5 := by
    intro _
    have : Real.sqrt 2 < 1.5 :=
      (Real.sqrt_lt' (by norm_num : (0 : ℝ) < 1.5)).mpr (by norm_num)
    simp only
    linarith
  have hsteps : ValidSteps 2 2 (gridOf fun _ => some 0)
      [((0 : ℤ), (0 : ℤ)), ((1 : ℤ), (1 : ℤ))] := by
    rw [ValidSteps]
    exact ⟨⟨by decide, by decide, by decide⟩, trivial⟩
  exact ⟨hfloor, hsteps, rfl,
    C1_admissible_under_safety_floor 2 2 (gridOf fun _ => some 0) (fun _ => 1) hfloor
      [((1 : ℤ), (1 : ℤ))] (0, 0) (1, 1) hsteps rfl⟩

/-! ### C10: termination of the search loop

The loop never closes popped cells, so a cell can be re-inserted whenever its
recorded `g_score` strictly improves.  Termination nevertheless holds for
non-negative safety maps: every recorded `g_score` is the cost of a
*duplicate-free* path from the start cell (the `WPath` invariant below), the
set of such costs on a finite grid is finite, and every push strictly lowers
its cell's position in that finite set, so the loop's measure
(Σ per-cell rank + heap size) strictly decreases at every iteration. -/

/-- Cost of a reversed cell chain (head = latest cell) under the code's step
costs: each step from `b` to `a` costs `stepCost safety (a - b) a`. -/
def chainCost (safety : Cell → ℚ) : List Cell → ℚ
  | [] => 0
  | [_] => 0
  | a :: b :: rest => stepCost safety (a.1 - b.1, a.2 - b.2) a + chainCost safety (b :: rest)

/-- `WPath g n v p`: `p` (reversed, head = `n`, last = `start`) is a
duplicate-free traversable chain witnessing the recorded cost `v` of cell `n`,
such that every strictly earlier cell `m'` of the chain carries a recorded
`g_score` not exceeding the chain's cost up to `m'`.  This is the invariant
that forces recorded costs to be duplicate-free path costs. -/
def WPath (R C : ℕ) (grid : Cell → ℕ) (safety : Cell → ℚ) (g : List (Cell × ℚ))
    (start : Cell) : Cell → ℚ → List Cell → Prop
  | _, _, [] => False
  | n, v, [m] => m = n ∧ n = start ∧ v = 0
  | n, v, m :: m' :: rest =>
    m = n ∧ n ∉ m' :: rest ∧
    (n.1 - m'.1, n.2 - m'.2) ∈ neighborOffsets ∧ inBounds R C n ∧ grid n ≠ 1 ∧
    ∃ v' : ℚ, WPath R C grid safety g start m' v' (m' :: rest) ∧
      v = v' + stepCost safety (n.1 - m'.1, n.2 - m'.2) n ∧
      ∃ w : ℚ, g.lookup m' = some w ∧ w ≤ v'

theorem stepCost_nonneg (safety : Cell → ℚ) (off nb : Cell) (hs : 0 ≤ safety nb) :
    0 ≤ stepCost safety off nb := by
  rw [stepCost]
  have : (0 : ℚ) ≤ safety nb * 1.5 := by
    have : (0 : ℚ) ≤ (1.5 : ℚ) := by norm_num
    positivity
  split <;> norm_num <;> linarith

theorem stepCost_ge_one (safety : Cell → ℚ) (off nb : Cell) (hs : 0 ≤ safety nb) :
    1 ≤ stepCost safety off nb := by
  rw [stepCost]
  have h15 : (0 : ℚ) ≤ safety nb * 1.5 := by positivity
  split <;> linarith

theorem WPath_head (R C : ℕ) (grid : Cell → ℕ) (safety : Cell → ℚ) (g : List (Cell × ℚ))
    (start : Cell) :
    ∀ (p : List Cell) (n : Cell) (v : ℚ), WPath R C grid safety g start n v p →
      p.head? = some n := by
  intro p n v h
  match p with
  | [] => exact absurd h (by rw [WPath]; exact id)
  | [m] => rw [WPath] at h; rw [h.1]; rfl
  | m :: m' :: rest => rw [WPath] at h; rw [h.1]; rfl

theorem WPath_nodup (R C : ℕ) (grid : Cell → ℕ) (safety : Cell → ℚ) (g : List (Cell × ℚ))
    (start : Cell) :
    ∀ (p : List Cell) (n : Cell) (v : ℚ), WPath R C grid safety g start n v p →
      p.Nodup := by
  intro p
  induction p with
  | nil => intro n v h; exact absurd h (by rw [WPath]; exact id)
  | cons m rest ih =>
    intro n v h
    match rest with
    | [] => exact List.nodup_singleton m
    | m' :: rest' =>
      rw [WPath] at h
      obtain ⟨rfl, hnot, -, -, -, v', hinner, -, -⟩ := h
      exact List.nodup_cons.mpr ⟨hnot, ih m' v' hinner⟩

theorem WPath_cost (R C : ℕ) (grid : Cell → ℕ) (safety : Cell → ℚ) (g : List (Cell × ℚ))
    (start : Cell) :
    ∀ (p : List Cell) (n : Cell) (v : ℚ), WPath R C grid safety g start n v p →
      v = chainCost safety p := by
  intro p
  induction p with
  | nil => intro n v h; exact absurd h (by rw [WPath]; exact id)
  | cons m rest ih =>
    intro n v h
    match rest with
    | [] =>
      rw [WPath] at h
      rw [h.2.2, chainCost]
    | m' :: rest' =>
      rw [WPath] at h
      obtain ⟨rfl, -, -, -, -, v', hinner, hv, -⟩ := h
      rw [chainCost, hv, ← ih m' v' hinner]
      ring

theorem WPath_inBounds (R C : ℕ) (grid : Cell → ℕ) (safety : Cell → ℚ)
    (g : List (Cell × ℚ)) (start : Cell) (hstart : inBounds R C start) :
    ∀ (p : List Cell) (n : Cell) (v : ℚ), WPath R C grid safety g start n v p →
      ∀ c ∈ p, inBounds R C c := by
  intro p
  induction p with
  | nil => intro n v h; exact absurd h (by rw [WPath]; exact id)
  | cons m rest ih =>
    intro n v h c hc
    match rest with
    | [] =>
      rw [WPath] at h
      obtain ⟨rfl, hst, -⟩ := h
      rcases List.mem_singleton.mp hc with rfl
      rw [hst]
      exact hstart
    | m' :: rest' =>
      rw [WPath] at h
      obtain ⟨rfl, -, -, hin, -, v', hinner, -, -⟩ := h
      rcases List.mem_cons.mp hc with rfl | hc
      · exact hin
      · exact ih m' v' hinner c hc

/-- The finite set of in-bounds cells of an `R × C` grid. -/
def univCells (R C : ℕ) : Finset Cell :=
  Finset.Icc (0 : ℤ) ((R : ℤ) - 1) ×ˢ Finset.Icc (0 : ℤ) ((C : ℤ) - 1)

theorem mem_univCells (R C : ℕ) (c : Cell) : c ∈ univCells R C ↔ inBounds R C c := by
  rw [univCells, Finset.mem_product, Finset.mem_Icc, Finset.mem_Icc]
  constructor
  · rintro ⟨⟨h1, h2⟩, h3, h4⟩
    exact ⟨h1, by omega, h3, by omega⟩
  · rintro ⟨h1, h2, h3, h4⟩
    exact ⟨⟨h1, by omega⟩, h3, by omega⟩

/-- Duplicate-free chains over the in-bounds cells. -/
def pathSet (R C : ℕ) : Set (List Cell) :=
  {p | p.Nodup ∧ ∀ c ∈ p, inBounds R C c}

theorem pathSet_finite (R C : ℕ) : (pathSet R C).Finite := by
  classical
  have hsub : pathSet R C ⊆
      (List.map (Subtype.val : {c : Cell // c ∈ univCells R C} → Cell)) ''
        {l : List {c : Cell // c ∈ univCells R C} |
          l.length ≤ Fintype.card {c : Cell // c ∈ univCells R C}} := by
    rintro p ⟨hnd, hmem⟩
    have hmem' : ∀ c ∈ p, c ∈ univCells R C := by
      intro c hc
      exact (mem_univCells R C c).mpr (hmem c hc)
    refine ⟨p.attachWith (· ∈ univCells R C) hmem', ?_, ?_⟩
    · have hmap : (p.attachWith (· ∈ univCells R C) hmem').map Subtype.val = p :=
        List.attachWith_map_subtype_val p hmem'
    -- nodup of the attached list, hence its length is at most the card
      have hnd' : (p.attachWith (· ∈ univCells R C) hmem').Nodup := by
        apply List.Nodup.of_map Subtype.val
        rwa [hmap]
      exact hnd'.length_le_card
    · exact List.attachWith_map_subtype_val p hmem'
  exact Set.Finite.subset
    (Set.Finite.image _ (List.finite_length_le _ _)) hsub

/-- The (finite) set of chain costs available on the grid. -/
def costSet (R C : ℕ) (safety : Cell → ℚ) : Set ℚ :=
  chainCost safety '' pathSet R C

theorem costSet_finite (R C : ℕ) (safety : Cell → ℚ) : (costSet R C safety).Finite :=
  Set.Finite.image _ (pathSet_finite R C)

/-- Rank of a cell under a score map: the number of available chain costs
strictly below its recorded score (unscored cells rank one above
everything). -/
noncomputable def rankOf (R C : ℕ) (safety : Cell → ℚ) (g : List (Cell × ℚ))
    (n : Cell) : ℕ :=
  match g.lookup n with
  | none => (costSet R C safety).ncard + 1
  | some v => (costSet R C safety ∩ Set.Iio v).ncard

/-- The loop measure: total rank of all in-bounds cells plus the heap size.
Every iteration of the `while oheap:` loop strictly decreases it. -/
noncomputable def measureOf (R C : ℕ) (safety : Cell → ℚ) (st : AState) : ℕ :=
  ((univCells R C).sum fun n => rankOf R C safety st.gscore n) + st.heap.length

/-- Every cell of a witness chain other than its head carries a recorded
`g_score` bounded by the chain's value (safety non-negative). -/
theorem WPath_label_le (R C : ℕ) (grid : Cell → ℕ) (safety : Cell → ℚ)
    (g : List (Cell × ℚ)) (start : Cell) (hsafety : ∀ c : Cell, 0 ≤ safety c) :
    ∀ (p : List Cell) (n : Cell) (v : ℚ), WPath R C grid safety g start n v p →
      ∀ m ∈ p, m = n ∨ ∃ w : ℚ, g.lookup m = some w ∧ w ≤ v := by
  intro p
  induction p with
  | nil => intro n v h; exact absurd h (by rw [WPath]; exact id)
  | cons m₀ rest ih =>
    intro n v h m hm
    match rest with
    | [] =>
      rw [WPath] at h
      rcases List.mem_singleton.mp hm with rfl
      exact Or.inl h.1
    | m' :: rest' =>
      rw [WPath] at h
      obtain ⟨rfl, -, -, -, -, v', hinner, hv, w, hw, hwle⟩ := h
      rcases List.mem_cons.mp hm with rfl | hm
      · exact Or.inl rfl
      · have hstep : 0 ≤ stepCost safety (m₀.1 - m'.1, m₀.2 - m'.2) m₀ :=
          stepCost_nonneg safety _ _ (hsafety m₀)
        rcases ih m' v' hinner m hm with rfl | ⟨w', hw', hwle'⟩
        · exact Or.inr ⟨w, hw, by rw [hv]; linarith⟩
        · exact Or.inr ⟨w', hw', by rw [hv]; linarith⟩

theorem filter_length_mono {α : Type} (l : List α) (P Q : α → Bool)
    (himp : ∀ a, Q a = true → P a = true) :
    (l.filter Q).length ≤ (l.filter P).length := by
  induction l with
  | nil => exact le_refl 0
  | cons a t ih =>
    rw [List.filter_cons, List.filter_cons]
    by_cases hq : Q a = true
    · rw [if_pos hq, if_pos (himp a hq)]
      simpa using ih
    · rw [if_neg hq]
      by_cases hp : P a = true
      · rw [if_pos hp]
        exact le_trans ih (by simp)
      · rw [if_neg hp]
        exact ih

theorem filter_length_lt {α : Type} (l : List α) (P Q : α → Bool)
    (himp : ∀ a, Q a = true → P a = true) (x : α) (hx : x ∈ l)
    (hPx : P x = true) (hQx : Q x = false) :
    (l.filter Q).length < (l.filter P).length := by
  induction l with
  | nil => exact absurd hx (List.not_mem_nil x)
  | cons a t ih =>
    rw [List.filter_cons, List.filter_cons]
    rcases List.mem_cons.mp hx with rfl | hx'
    · rw [if_pos hPx, if_neg (by rw [hQx]; exact Bool.false_ne_true)]
      exact Nat.lt_succ_of_le (filter_length_mono t P Q himp)
    · by_cases hq : Q a = true
      · rw [if_pos hq, if_pos (himp a hq)]
        simpa using ih hx'
      · rw [if_neg hq]
        by_cases hp : P a = true
        · rw [if_pos hp]
          exact Nat.lt_succ_of_lt (ih hx')
        · rw [if_neg hp]
          exact ih hx'

/-- If the `came_from` map strictly decreases recorded scores (by at least 1
per link), path reconstruction succeeds within `came.length + 1` steps: the
chain can visit each binding at most once. -/
theorem reconstructPath_total (came : List (Cell × Cell)) (g : List (Cell × ℚ))
    (hdec : ∀ n c : Cell, came.lookup n = some c →
      ∃ vn vc : ℚ, g.lookup n = some vn ∧ g.lookup c = some vc ∧ vc + 1 ≤ vn) :
    ∀ (fuel : ℕ) (cur : Cell) (acc : List Cell),
      (came.filter fun p : Cell × Cell =>
        decide ((g.lookup p.1).getD 0 < (g.lookup cur).getD 0)).length < fuel →
      ∃ r, reconstructPath came cur fuel acc = some r := by
  intro fuel
  induction fuel with
  | zero =>
    intro cur acc hcount
    exact absurd hcount (Nat.not_lt_zero _)
  | succ f ih =>
    intro cur acc hcount
    rw [reconstructPath]
    cases hl : came.lookup cur with
    | none => exact ⟨acc, rfl⟩
    | some c =>
      cases hl' : came.lookup c with
      | none =>
        refine ⟨cur :: acc, ?_⟩
        show reconstructPath came c f (cur :: acc) = some (cur :: acc)
        rw [reconstructPath, hl']
      | some d =>
        show ∃ r, reconstructPath came c f (cur :: acc) = some r
        apply ih c (cur :: acc)
        obtain ⟨vn, vc, hgn, hgc, hdecr⟩ := hdec cur c hl
        have hrank : (g.lookup c).getD 0 < (g.lookup cur).getD 0 := by
          rw [hgn, hgc]
          simp only [Option.getD_some]
          linarith
        have hlt : (came.filter fun p : Cell × Cell =>
            decide ((g.lookup p.1).getD 0 < (g.lookup c).getD 0)).length <
              (came.filter fun p : Cell × Cell =>
                decide ((g.lookup p.1).getD 0 < (g.lookup cur).getD 0)).length := by
          apply filter_length_lt came _ _ ?_ (c, d) (lookup_mem hl') ?_ ?_
          · intro a ha
            rw [decide_eq_true_iff] at ha ⊢
            exact lt_trans ha hrank
          · rw [decide_eq_true_iff]
            exact hrank
          · rw [decide_eq_false_iff_not]
            exact lt_irrefl _
        omega

/-- The loop invariant: every open-heap cell has a recorded score, every
recorded score is witnessed by a duplicate-free chain from the start cell
(`WPath`), and every `came_from` link strictly decreases recorded scores. -/
structure AInv (R C : ℕ) (grid : Cell → ℕ) (safety : Cell → ℚ) (start : Cell)
    (st : AState) : Prop where
  heap_labeled : ∀ e ∈ st.heap, ∃ v : ℚ, st.gscore.lookup e.2 = some v
  label_witness : ∀ n v, st.gscore.lookup n = some v →
    ∃ p, WPath R C grid safety st.gscore start n v p
  came_decr : ∀ n c : Cell, st.came.lookup n = some c →
    ∃ vn vc : ℚ, st.gscore.lookup n = some vn ∧ st.gscore.lookup c = some vc ∧
      vc + 1 ≤ vn

/-- A witness chain survives any update of the score map that only lowers
(or adds) recorded scores. -/
theorem WPath_mono (R C : ℕ) (grid : Cell → ℕ) (safety : Cell → ℚ)
    (g g' : List (Cell × ℚ)) (start : Cell)
    (hmono : ∀ (m : Cell) (w : ℚ), g.lookup m = some w →
      ∃ w' : ℚ, g'.lookup m = some w' ∧ w' ≤ w) :
    ∀ (p : List Cell) (n : Cell) (v : ℚ), WPath R C grid safety g start n v p →
      WPath R C grid safety g' start n v p := by
  intro p
  induction p with
  | nil => intro n v h; exact absurd h (by rw [WPath]; exact id)
  | cons m rest ih =>
    intro n v h
    match rest with
    | [] => rwa [WPath] at h ⊢
    | m' :: rest' =>
      rw [WPath] at h ⊢
      obtain ⟨rfl, hnot, hoff, hin, hnav, v', hinner, hv, w, hw, hwle⟩ := h
      obtain ⟨w', hw', hwle'⟩ := hmono m' w hw
      exact ⟨rfl, hnot, hoff, hin, hnav,
        v', ih m' v' hinner, hv, w', hw', le_trans hwle' hwle⟩

theorem lookup_cons_ne {α β : Type} [BEq α] [LawfulBEq α] {k a : α} (b : β)
    (l : List (α × β)) (hne : k ≠ a) : ((a, b) :: l).lookup k = l.lookup k := by
  rw [List.lookup_cons]
  rw [show (k == a) = false from beq_eq_false_iff_ne.mpr hne]

theorem neighbor_ne (cur off : Cell) (hoff : off ∈ neighborOffsets) :
    (cur.1 + off.1, cur.2 + off.2) ≠ cur := by
  obtain ⟨o1, o2⟩ := off
  intro h
  rw [Prod.mk.injEq] at h
  have h1 : o1 = 0 := by omega
  have h2 : o2 = 0 := by omega
  subst h1
  subst h2
  exact absurd hoff (by decide)

theorem label_mem_costSet (R C : ℕ) (grid : Cell → ℕ) (safety : Cell → ℚ)
    (g : List (Cell × ℚ)) (start : Cell) (hstart : inBounds R C start)
    (n : Cell) (v : ℚ) (p : List Cell) (h : WPath R C grid safety g start n v p) :
    v ∈ costSet R C safety :=
  ⟨p, ⟨WPath_nodup R C grid safety g start p n v h,
    WPath_inBounds R C grid safety g start hstart p n v h⟩,
    (WPath_cost R C grid safety g start p n v h).symm⟩

theorem rankOf_congr (R C : ℕ) (safety : Cell → ℚ) (g g' : List (Cell × ℚ)) (n : Cell)
    (h : g'.lookup n = g.lookup n) :
    rankOf R C safety g' n = rankOf R C safety g n := by
  rw [rankOf, rankOf, h]

theorem rankOf_none (R C : ℕ) (safety : Cell → ℚ) (g : List (Cell × ℚ)) (n : Cell)
    (h : g.lookup n = none) :
    rankOf R C safety g n = (costSet R C safety).ncard + 1 := by
  rw [rankOf, h]

theorem rankOf_some (R C : ℕ) (safety : Cell → ℚ) (g : List (Cell × ℚ)) (n : Cell)
    (v : ℚ) (h : g.lookup n = some v) :
    rankOf R C safety g n = (costSet R C safety ∩ Set.Iio v).ncard := by
  rw [rankOf, h]

/-- Pushing a strictly better score for a cell strictly lowers its rank. -/
theorem rank_push_lt (R C : ℕ) (safety : Cell → ℚ) (g : List (Cell × ℚ)) (nb : Cell)
    (t : ℚ) (htS : t ∈ costSet R C safety)
    (hold : ∀ v : ℚ, g.lookup nb = some v → t < v) :
    rankOf R C safety ((nb, t) :: g) nb < rankOf R C safety g nb := by
  have hfin : (costSet R C safety).Finite := costSet_finite R C safety
  rw [rankOf_some R C safety _ nb t List.lookup_cons_self]
  cases hv : g.lookup nb with
  | none =>
    rw [rankOf_none R C safety g nb hv]
    have hle : (costSet R C safety ∩ Set.Iio t).ncard ≤ (costSet R C safety).ncard :=
      Set.ncard_le_ncard Set.inter_subset_left hfin
    omega
  | some v =>
    rw [rankOf_some R C safety g nb v hv]
    have hlt := hold v hv
    apply Set.ncard_lt_ncard
    · constructor
      · exact Set.inter_subset_inter_right _ (Set.Iio_subset_Iio (le_of_lt hlt))
      · intro hsup
        exact absurd (Set.mem_Iio.mp (hsup ⟨htS, Set.mem_Iio.mpr hlt⟩).2) (lt_irrefl t)
    · exact Set.Finite.inter_of_left hfin _

/-- One neighbour expansion preserves the invariant, does not increase the
measure, and leaves the current cell's recorded score unchanged. -/
theorem expandNeighbor_inv (R C : ℕ) (grid : Cell → ℕ) (safety : Cell → ℚ)
    (goal start : Cell) (hsafety : ∀ c : Cell, 0 ≤ safety c)
    (hstart : inBounds R C start) (st : AState)
    (hInv : AInv R C grid safety start st) (cur : Cell) (gcur : ℚ)
    (hcur : st.gscore.lookup cur = some gcur) (off : Cell)
    (hoff : off ∈ neighborOffsets) :
    AInv R C grid safety start (expandNeighbor R C grid safety goal cur gcur st off) ∧
      measureOf R C safety (expandNeighbor R C grid safety goal cur gcur st off) ≤
        measureOf R C safety st ∧
      (expandNeighbor R C grid safety goal cur gcur st off).gscore.lookup cur =
        some gcur := by
  rw [expandNeighbor]
  by_cases hb : inBounds R C (cur.1 + off.1, cur.2 + off.2)
  swap
  · rw [if_neg hb]
    exact ⟨hInv, le_refl _, hcur⟩
  rw [if_pos hb]
  by_cases hg : grid (cur.1 + off.1, cur.2 + off.2) = 1
  · rw [if_pos hg]
    exact ⟨hInv, le_refl _, hcur⟩
  rw [if_neg hg]
  by_cases hbet : betterThan st.gscore (cur.1 + off.1, cur.2 + off.2)
      (gcur + stepCost safety off (cur.1 + off.1, cur.2 + off.2)) = true
  swap
  · rw [if_neg hbet]
    exact ⟨hInv, le_refl _, hcur⟩
  rw [if_pos hbet]
  -- the push case
  have hne : (cur.1 + off.1, cur.2 + off.2) ≠ cur := neighbor_ne cur off hoff
  have hnecur : cur ≠ (cur.1 + off.1, cur.2 + off.2) := Ne.symm hne
  have hstep1 : 1 ≤ stepCost safety off (cur.1 + off.1, cur.2 + off.2) :=
    stepCost_ge_one safety off _ (hsafety _)
  have hold : ∀ v : ℚ, st.gscore.lookup (cur.1 + off.1, cur.2 + off.2) = some v →
      gcur + stepCost safety off (cur.1 + off.1, cur.2 + off.2) < v := by
    intro v hv
    rw [betterThan, hv] at hbet
    exact of_decide_eq_true hbet
  obtain ⟨pc, hpc⟩ := hInv.label_witness cur gcur hcur
  have hmono : ∀ (m : Cell) (w : ℚ), st.gscore.lookup m = some w →
      ∃ w' : ℚ, (((cur.1 + off.1, cur.2 + off.2),
          gcur + stepCost safety off (cur.1 + off.1, cur.2 + off.2)) ::
            st.gscore).lookup m = some w' ∧ w' ≤ w := by
    intro m w hm
    by_cases hmnb : m = (cur.1 + off.1, cur.2 + off.2)
    · subst hmnb
      exact ⟨_, List.lookup_cons_self, le_of_lt (hold w hm)⟩
    · exact ⟨w, by rw [lookup_cons_ne _ _ hmnb]; exact hm, le_refl w⟩
  have hnbpc : (cur.1 + off.1, cur.2 + off.2) ∉ pc := by
    intro hmem
    rcases WPath_label_le R C grid safety st.gscore start hsafety pc cur gcur hpc
        _ hmem with heq | ⟨w, hw, hwle⟩
    · exact hne heq
    · have h1 := hold w hw
      linarith
  -- the witness chain of `cur` starts with `cur`
  obtain ⟨pcrest, rfl⟩ : ∃ rest, pc = cur :: rest := by
    cases pc with
    | nil => exact absurd hpc (by rw [WPath]; exact id)
    | cons c0 rest =>
      have := WPath_head R C grid safety st.gscore start (c0 :: rest) cur gcur hpc
      rw [List.head?_cons] at this
      injection this with this
      exact ⟨rest, by rw [this]⟩
  have hoffeq : ((cur.1 + off.1, cur.2 + off.2).1 - cur.1,
      (cur.1 + off.1, cur.2 + off.2).2 - cur.2) = off := by
    apply Prod.ext <;> simp
  have hwp' : WPath R C grid safety
      (((cur.1 + off.1, cur.2 + off.2),
        gcur + stepCost safety off (cur.1 + off.1, cur.2 + off.2)) :: st.gscore)
      start (cur.1 + off.1, cur.2 + off.2)
      (gcur + stepCost safety off (cur.1 + off.1, cur.2 + off.2))
      ((cur.1 + off.1, cur.2 + off.2) :: cur :: pcrest) := by
    rw [WPath]
    refine ⟨rfl, hnbpc, ?_, hb, hg, gcur, ?_, ?_, gcur, ?_, le_refl gcur⟩
    · rw [hoffeq]
      exact hoff
    · exact WPath_mono R C grid safety st.gscore _ start hmono _ cur gcur hpc
    · rw [hoffeq]
    · rw [lookup_cons_ne _ _ hnecur]
      exact hcur
  have htS : gcur + stepCost safety off (cur.1 + off.1, cur.2 + off.2) ∈
      costSet R C safety :=
    label_mem_costSet R C grid safety _ start hstart _ _ _ hwp'
  refine ⟨?_, ?_, ?_⟩
  · -- the invariant for the pushed state
    refine ⟨?_, ?_, ?_⟩
    · intro e he
      rcases List.mem_cons.mp he with rfl | he
      · exact ⟨_, List.lookup_cons_self⟩
      · obtain ⟨v, hv⟩ := hInv.heap_labeled e he
        by_cases henb : e.2 = (cur.1 + off.1, cur.2 + off.2)
        · rw [henb]
          exact ⟨_, List.lookup_cons_self⟩
        · exact ⟨v, by rw [lookup_cons_ne _ _ henb]; exact hv⟩
    · intro n v hv
      by_cases hnnb : n = (cur.1 + off.1, cur.2 + off.2)
      · subst hnnb
        rw [List.lookup_cons_self] at hv
        injection hv with hv
        subst hv
        exact ⟨_, hwp'⟩
      · rw [lookup_cons_ne _ _ hnnb] at hv
        obtain ⟨p, hp⟩ := hInv.label_witness n v hv
        exact ⟨p, WPath_mono R C grid safety st.gscore _ start hmono p n v hp⟩
    · intro n c hnc
      by_cases hnnb : n = (cur.1 + off.1, cur.2 + off.2)
      · subst hnnb
        rw [List.lookup_cons_self] at hnc
        injection hnc with hnc
        subst hnc
        refine ⟨_, gcur, List.lookup_cons_self, ?_, by linarith⟩
        rw [lookup_cons_ne _ _ hnecur]
        exact hcur
      · rw [lookup_cons_ne _ _ hnnb] at hnc
        obtain ⟨vn, vc, hgn, hgc, hd⟩ := hInv.came_decr n c hnc
        refine ⟨vn, ?_⟩
        by_cases hcnb : c = (cur.1 + off.1, cur.2 + off.2)
        · subst hcnb
          have hlt := hold vc hgc
          refine ⟨_, by rw [lookup_cons_ne _ _ hnnb]; exact hgn,
            List.lookup_cons_self, by linarith⟩
        · exact ⟨vc, by rw [lookup_cons_ne _ _ hnnb]; exact hgn,
            by rw [lookup_cons_ne _ _ hcnb]; exact hgc, hd⟩
  · -- the measure does not increase
    have hsumlt : ((univCells R C).sum fun n => rankOf R C safety
          ((((cur.1 + off.1, cur.2 + off.2),
            gcur + stepCost safety off (cur.1 + off.1, cur.2 + off.2)) ::
              st.gscore)) n) <
        ((univCells R C).sum fun n => rankOf R C safety st.gscore n) := by
      apply Finset.sum_lt_sum
      · intro i hi
        by_cases hinb : i = (cur.1 + off.1, cur.2 + off.2)
        · subst hinb
          exact le_of_lt (rank_push_lt R C safety st.gscore _ _ htS hold)
        · rw [rankOf_congr R C safety st.gscore _ i (lookup_cons_ne _ _ hinb)]
      · exact ⟨(cur.1 + off.1, cur.2 + off.2), (mem_univCells R C _).mpr hb,
          rank_push_lt R C safety st.gscore _ _ htS hold⟩
    rw [measureOf, measureOf]
    simp only [List.length_cons]
    omega
  · rw [lookup_cons_ne _ _ hnecur]
    exact hcur

theorem foldl_expandNeighbor_inv (R C : ℕ) (grid : Cell → ℕ) (safety : Cell → ℚ)
    (goal start : Cell) (hsafety : ∀ c : Cell, 0 ≤ safety c)
    (hstart : inBounds R C start) (cur : Cell) (gcur : ℚ) (offs : List Cell)
    (hoffs : ∀ o ∈ offs, o ∈ neighborOffsets) :
    ∀ st : AState, AInv R C grid safety start st →
      st.gscore.lookup cur = some gcur →
      AInv R C grid safety start
          (offs.foldl (expandNeighbor R C grid safety goal cur gcur) st) ∧
        measureOf R C safety
            (offs.foldl (expandNeighbor R C grid safety goal cur gcur) st) ≤
          measureOf R C safety st := by
  induction offs with
  | nil => intro st h hc; exact ⟨h, le_refl _⟩
  | cons o t ih =>
    intro st h hc
    rw [List.foldl_cons]
    obtain ⟨h1, h2, h3⟩ := expandNeighbor_inv R C grid safety goal start hsafety hstart
      st h cur gcur hc o (hoffs o (List.mem_cons_self o t))
    obtain ⟨h4, h5⟩ := ih (fun o' ho' => hoffs o' (List.mem_cons_of_mem _ ho')) _ h1 h3
    exact ⟨h4, le_trans h5 h2⟩

theorem AInv_pop (R C : ℕ) (grid : Cell → ℕ) (safety : Cell → ℚ) (start : Cell)
    (heap heap' : List HeapEntry) (came : List (Cell × Cell)) (g : List (Cell × ℚ))
    (h : AInv R C grid safety start ⟨heap, came, g⟩)
    (hsub : ∀ e ∈ heap', e ∈ heap) :
    AInv R C grid safety start ⟨heap', came, g⟩ :=
  ⟨fun e he => h.heap_labeled e (hsub e he), h.label_witness, h.came_decr⟩

/-- Strong induction on the measure: from any invariant-respecting state, the
loop finishes within `measure + 1` iterations. -/
theorem astarLoop_total (R C : ℕ) (grid : Cell → ℕ) (safety : Cell → ℚ)
    (goal start : Cell) (hsafety : ∀ c : Cell, 0 ≤ safety c)
    (hstart : inBounds R C start) :
    ∀ (N : ℕ) (st : AState), AInv R C grid safety start st →
      measureOf R C safety st ≤ N →
      ∃ r, astarLoop R C grid safety goal (N + 1) st = some r := by
  intro N
  induction N with
  | zero =>
    intro st hInv hm
    obtain ⟨heap, came, g⟩ := st
    cases heap with
    | nil => rw [astarLoop]; exact ⟨[], rfl⟩
    | cons x t =>
      exfalso
      rw [measureOf] at hm
      simp only [List.length_cons] at hm
      omega
  | succ M ih =>
    intro st hInv hm
    obtain ⟨heap, came, g⟩ := st
    cases heap with
    | nil => rw [astarLoop]; exact ⟨[], rfl⟩
    | cons x t =>
      rw [astarLoop]
      by_cases hgl : (findMin x t).2 = goal
      · rw [if_pos hgl]
        apply reconstructPath_total came g hInv.came_decr _ _ []
        have hfl : (came.filter fun p : Cell × Cell =>
            decide ((g.lookup p.1).getD 0 <
              (g.lookup (findMin x t).2).getD 0)).length ≤ came.length :=
          List.length_filter_le _ _
        omega
      · rw [if_neg hgl]
        obtain ⟨gcur, hgc⟩ := hInv.heap_labeled (findMin x t) (findMin_mem x t)
        have hgetD : (g.lookup (findMin x t).2).getD 0 = gcur := by rw [hgc]; rfl
        rw [hgetD]
        have hpopInv : AInv R C grid safety start
            ⟨(x :: t).erase (findMin x t), came, g⟩ :=
          AInv_pop R C grid safety start (x :: t) _ came g hInv
            (fun e he => List.mem_of_mem_erase he)
        have hlen : ((x :: t).erase (findMin x t)).length = (x :: t).length - 1 :=
          List.length_erase_of_mem (findMin_mem x t)
        have hpopm : measureOf R C safety ⟨(x :: t).erase (findMin x t), came, g⟩ + 1 =
            measureOf R C safety ⟨x :: t, came, g⟩ := by
          rw [measureOf, measureOf]
          simp only [List.length_cons] at hlen ⊢
          omega
        obtain ⟨hfInv, hfm⟩ := foldl_expandNeighbor_inv R C grid safety goal start
          hsafety hstart (findMin x t).2 gcur neighborOffsets (fun o ho => ho)
          ⟨(x :: t).erase (findMin x t), came, g⟩ hpopInv hgc
        apply ih _ hfInv
        omega

/-- **C10.** For every finite grid, every non-negative safety map and every
pair of in-bounds start/goal cells, the A* loop terminates after finitely
many iterations, returning either a path or the empty result: some finite
fuel bound makes the fuelled model return `some` (the fuel-free Python loop
performs exactly these iterations).  This holds even though popped cells are
never closed and a cell is re-inserted whenever its recorded cost strictly
improves: each recorded cost is the cost of a duplicate-free chain, those
costs form a finite set, and every push strictly lowers its cell's rank. -/
theorem C10_search_terminates (R C : ℕ) (grid : Cell → ℕ) (safety : Cell → ℚ)
    (start goal : Cell) (hsafety : ∀ c : Cell, 0 ≤ safety c)
    (hstart : inBounds R C start) (_hgoal : inBounds R C goal) :
    ∃ (fuel : ℕ) (result : List Cell),
      astar_search R C grid safety start goal fuel = some result := by
  have hinit : AInv R C grid safety start
      ⟨[((0, 0), start)], [], [(start, 0)]⟩ := by
    refine ⟨?_, ?_, ?_⟩
    · intro e he
      rcases List.mem_singleton.mp he with rfl
      exact ⟨0, List.lookup_cons_self⟩
    · intro n v hv
      by_cases hns : n = start
      · subst hns
        rw [List.lookup_cons_self] at hv
        injection hv with hv
        subst hv
        exact ⟨[n], by rw [WPath]; exact ⟨rfl, rfl, rfl⟩⟩
      · rw [lookup_cons_ne _ _ hns] at hv
        exact absurd hv (by simp)
    · intro n c hnc
      exact absurd hnc (by simp)
  obtain ⟨r, hr⟩ := astarLoop_total R C grid safety goal start hsafety hstart
    (measureOf R C safety ⟨[((0, 0), start)], [], [(start, 0)]⟩) _ hinit (le_refl _)
  exact ⟨_, r, hr⟩

unseal Rat.add Rat.sub Rat.mul Rat.inv Rat.ofScientific in
/-- Witness for C10: the concrete 2×2 all-water search with zero safety map
and in-bounds endpoints terminates. -/
theorem C10_search_terminates_witness :
    (∀ c : Cell, (0 : ℚ) ≤ (fun _ : Cell => (0 : ℚ)) c) ∧
      inBounds 2 2 ((0 : ℤ), (0 : ℤ)) ∧ inBounds 2 2 ((1 : ℤ), (1 : ℤ)) ∧
      ∃ (fuel : ℕ) (result : List Cell),
        astar_search 2 2 (gridOf fun _ => some 0) (fun _ => 0) (0, 0) (1, 1) fuel =
          some result :=
  ⟨fun _ => le_refl 0, by decide, by decide,
    C10_search_terminates 2 2 (gridOf fun _ => some 0) (fun _ => 0) (0, 0) (1, 1)
      (fun _ => le_refl 0) (by decide) (by decide)⟩
